import Mathlib

/-!
Verification of the coinche ISMCTS engine (repository `retdop/coinche`).

This file shallowly embeds the game model and the search engine of the
repository and proves the specification claims about them.

Two source variants exist:
* `src/ismcts.py` — class `Coinche` with a working `do_move` but a
  `get_moves` without the overtrump filter;
* `src/coinche/coinche.py` — class `Coinche` whose `get_moves` has the
  overtrump filter, but whose `do_move` begins with
  `self.moves_history.append(move)` while the constructor only defines
  `move_history`.

Both variants share the card model, `score`, `get_trick_winner` and
`clone_and_randomize`; they are embedded once, on a single state type.
Players are modelled as `Fin 4` (the Python dict keys 0..3), suits as a
four-constructor inductive, point values as `Nat` (the Python ints are
always non-negative here).
-/

/-- The four suits: '♠' (Pique), '♦' (Carreau), '♥' (Coeur), '♣' (Trèfle). -/
inductive Suit where
  | spades
  | diamonds
  | hearts
  | clubs
deriving DecidableEq, Repr

/-- The list `['♠', '♦', '♥', '♣']` used by the deck construction. -/
def suitList : List Suit := [.spades, .diamonds, .hearts, .clubs]

/-- A playing card, with rank and suit. Ranks are integers 7–14
    (Jack = 11, Queen = 12, King = 13, Ace = 14); the constructors in the
    source validate membership of 7–14, so all reachable cards satisfy
    `7 ≤ rank ∧ rank ≤ 14`. Equality is by (rank, suit), as in
    `Card.__eq__`. -/
structure Card where
  rank : Nat
  suit : Suit
deriving DecidableEq, Repr

/-- The dict `atout_values` (trump point values), `src/ismcts.py` lines
    74–83 and `src/coinche/card.py` lines 1–10. The dict is only ever
    looked up at ranks 7–14; other ranks (a `KeyError` in Python) are
    mapped to 0 here and never occur on reachable cards. -/
def atout_values : Nat → Nat
  | 11 => 20
  | 9 => 14
  | 14 => 11
  | 10 => 10
  | 13 => 4
  | 12 => 3
  | 8 => 0
  | 7 => 0
  | _ => 0

/-- The dict `non_atout_values` (non-trump point values). -/
def non_atout_values : Nat → Nat
  | 14 => 11
  | 10 => 10
  | 13 => 4
  | 12 => 3
  | 11 => 2
  | 9 => 0
  | 8 => 0
  | 7 => 0
  | _ => 0

/-- `Card.value(self, atout)`: trump table if the card's suit is the
    trump suit, non-trump table otherwise. -/
def Card.value (c : Card) (atout : Suit) : Nat :=
  if c.suit = atout then atout_values c.rank else non_atout_values c.rank

/-- The game state of class `Coinche`. `player_hands` is the dict
    player ↦ hand, `current_cards` the in-progress trick as (player, card)
    pairs, `current_scores` the two-entry round score list and `scores`
    the cumulative score list. The `verbose` flag and (in the
    `src/coinche/coinche.py` variant) `move_history` do not influence any
    embedded operation and are omitted. -/
structure Coinche where
  player_to_move : Fin 4
  player_hands : Fin 4 → List Card
  atout : Suit
  current_cards : List (Fin 4 × Card)
  current_round : Nat
  current_scores : Nat × Nat
  scores : Nat × Nat

/-- `Coinche.get_card_deck()`: the 32 = 8 × 4 cards, ranks 7..14 outer,
    suits '♠','♦','♥','♣' inner. -/
def get_card_deck : List Card :=
  ((List.range 8).map (· + 7)).flatMap (fun r => suitList.map (fun s => ⟨r, s⟩))

/-- `Coinche.get_next_player(p) = (p + 1) % 4`; `Fin 4` addition is
    exactly arithmetic mod 4. -/
def get_next_player (p : Fin 4) : Fin 4 := p + 1

/-- `Coinche.score()`: the summed values of the cards of the current
    trick, plus 10 ("10 de der") when the hand of `player_to_move` is
    empty. -/
def Coinche.score (s : Coinche) : Nat :=
  (s.current_cards.map (fun pc => pc.2.value s.atout)).sum +
    (if s.player_hands s.player_to_move = [] then 10 else 0)

/-- `Coinche.get_result(player)` of `src/ismcts.py`:
    `current_scores[player % 2]`. -/
def Coinche.get_result (s : Coinche) (player : Fin 4) : Nat :=
  if player.val % 2 = 0 then s.current_scores.1 else s.current_scores.2

/-- Python's stable `sorted(l, key=...)` for a `Nat`-valued key:
    Mathlib's insertion sort with the key-lifted order (same algorithm,
    same stability). -/
def sortedByKey (key : α → Nat) (l : List α) : List α :=
  List.insertionSort (fun a b => key a ≤ key b) l

/-- `Coinche.get_trick_winner()`: among the trump plays of the current
    trick (or, if there are none, the plays following the lead suit),
    the player of the last card of the value-sorted list, i.e. of a
    maximal-value card. `none` models the `IndexError` on an empty
    trick, which no caller reaches. -/
def Coinche.get_trick_winner (s : Coinche) : Option (Fin 4) :=
  match s.current_cards with
  | [] => none
  | (_, lead_card) :: _ =>
    let atout_plays := s.current_cards.filter (fun pc => pc.2.suit == s.atout)
    let suited_plays := s.current_cards.filter (fun pc => pc.2.suit == lead_card.suit)
    let sorted_plays :=
      if atout_plays.isEmpty then
        sortedByKey (fun pc => pc.2.value s.atout) suited_plays
      else
        sortedByKey (fun pc => pc.2.value s.atout) atout_plays
    sorted_plays.getLast?.map Prod.fst

/-- `current_scores[winner % 2] += v`. -/
def addTeamScore (cs : Nat × Nat) (winner : Fin 4) (v : Nat) : Nat × Nat :=
  if winner.val % 2 = 0 then (cs.1 + v, cs.2) else (cs.1, cs.2 + v)

/-- `Coinche.do_move(move)` of `src/ismcts.py` (lines 242–280): append
    (mover, move) to the trick (replacing it when it already held 4
    plays — dead code for reachable states), remove the card from the
    mover's hand, advance the mover; when the trick now holds 4 plays,
    resolve it: mover becomes the trick winner, the winning team's round
    score grows by `score()` (computed after the hand removal and with
    `player_to_move` already set to the winner), and the trick resets.
    `none` models the exceptions Python would raise (`ValueError` from
    `list.remove` when the move is not in the mover's hand, `IndexError`
    inside `get_trick_winner`); a raising call leaves the caller with no
    new state. -/
def Coinche.do_move (s : Coinche) (move : Card) : Option Coinche :=
  let cc :=
    if s.current_cards.length < 4 then s.current_cards ++ [(s.player_to_move, move)]
    else [(s.player_to_move, move)]
  if move ∈ s.player_hands s.player_to_move then
    let hands' := fun p =>
      if p = s.player_to_move then (s.player_hands p).erase move else s.player_hands p
    let s1 : Coinche :=
      { s with
        current_cards := cc
        player_hands := hands'
        player_to_move := get_next_player s.player_to_move }
    if cc.length > 3 then
      match s1.get_trick_winner with
      | none => none
      | some trick_winner =>
        let s2 := { s1 with player_to_move := trick_winner }
        some { s2 with
                current_scores := addTeamScore s2.current_scores trick_winner s2.score
                current_cards := [] }
    else
      some s1
  else
    none

/-- `Coinche.get_moves()` of `src/ismcts.py` (lines 282–304): the whole
    hand on an empty trick; otherwise the mover's cards of the lead suit
    if any, else the mover's trumps if any, else the whole hand. This
    variant has no overtrump filter. -/
def Coinche.get_moves (s : Coinche) : List Card :=
  let hand := s.player_hands s.player_to_move
  match s.current_cards with
  | [] => hand
  | (_, lead_card) :: _ =>
    let cards_in_suit := hand.filter (fun c => c.suit == lead_card.suit)
    let cards_in_atout := hand.filter (fun c => c.suit == s.atout)
    if ¬cards_in_suit.isEmpty then cards_in_suit
    else if ¬cards_in_atout.isEmpty then cards_in_atout
    else hand

/-- `Coinche.get_moves()` of `src/coinche/coinche.py` (lines 236–268):
    as `Coinche.get_moves`, but when the mover cannot follow suit and
    holds trumps, and a trump was already played in this trick, the held
    trumps whose value strictly exceeds the value of the last element of
    the value-sorted played trumps (its maximum) are returned when there
    are any ("overtrumping"), the full held trump set otherwise. -/
def get_moves_cc (s : Coinche) : List Card :=
  let hand := s.player_hands s.player_to_move
  match s.current_cards with
  | [] => hand
  | (_, lead_card) :: _ =>
    let atout_played := (s.current_cards.filter (fun pc => pc.2.suit == s.atout)).map Prod.snd
    let sorted_atout_played := sortedByKey (fun c => c.value s.atout) atout_played
    let cards_in_suit := hand.filter (fun c => c.suit == lead_card.suit)
    let cards_in_atout := hand.filter (fun c => c.suit == s.atout)
    if ¬cards_in_suit.isEmpty then cards_in_suit
    else if ¬cards_in_atout.isEmpty then
      match sorted_atout_played.getLast? with
      | none => cards_in_atout
      | some top =>
        let better_atout_cards :=
          cards_in_atout.filter (fun c => top.value s.atout < c.value s.atout)
        if ¬better_atout_cards.isEmpty then better_atout_cards else cards_in_atout
    else hand

/-- The attribute names assigned by `Coinche.__init__` (and `deal` /
    `random_deal`) of `src/coinche/coinche.py`, lines 62–76: the
    constructor defines `move_history`, not `moves_history`. -/
def coincheInitAttrs : List String :=
  ["number_of_players", "player_to_move", "player_hands", "atout",
   "current_cards", "current_round", "current_scores", "scores",
   "verbose", "move_history"]

/-- `Coinche.do_move(move)` of `src/coinche/coinche.py` (lines 194–228).
    Its first statement is `self.moves_history.append(move)`: reading the
    attribute `moves_history` on an object whose defined attributes are
    `coincheInitAttrs` raises `AttributeError` before anything else runs.
    The remaining body (identical to the `src/ismcts.py` variant's
    `do_move` apart from the history append) is reproduced under the
    attribute guard. -/
def do_move_cc (s : Coinche) (move : Card) : Except String Coinche :=
  if "moves_history" ∈ coincheInitAttrs then
    let cc :=
      if s.current_cards.length < 4 then s.current_cards ++ [(s.player_to_move, move)]
      else [(s.player_to_move, move)]
    if move ∈ s.player_hands s.player_to_move then
      let hands' := fun p =>
        if p = s.player_to_move then (s.player_hands p).erase move else s.player_hands p
      let s1 : Coinche :=
        { s with
          current_cards := cc
          player_hands := hands'
          player_to_move := get_next_player s.player_to_move }
      if cc.length > 3 then
        match s1.get_trick_winner with
        | none => .error "IndexError"
        | some trick_winner =>
          let s2 := { s1 with player_to_move := trick_winner }
          .ok { s2 with
                  current_scores := addTeamScore s2.current_scores trick_winner s2.score
                  current_cards := [] }
      else
        .ok s1
    else
      .error "ValueError"
  else
    .error "AttributeError: moves_history"

/-- One step of the shared pseudo-random source (`random` module): a
    linear-congruential generator on a `Nat` seed. Every random choice
    in the engine consumes the source through this step, so a whole
    search is a pure function of the initial seed. -/
def rngNext (g : Nat) : Nat := (g * 1103515245 + 12345) % 2 ^ 31

/-- Draw a number from the random source, advancing it. -/
def randStep (g : Nat) : Nat × Nat := (g, rngNext g)

/-- Helper of `shuffle`: repeatedly extract the element at a
    source-determined index. The fuel is the list length, so the `none`
    case is unreachable. -/
def shuffleGo : Nat → Nat → List α → List α × Nat
  | 0, g, _ => ([], g)
  | n + 1, g, l =>
    match l[g % l.length]? with
    | none => ([], g)
    | some x =>
      let rest := shuffleGo n (rngNext g) (l.eraseIdx (g % l.length))
      (x :: rest.1, rest.2)

/-- `random.shuffle(l)`: a permutation of `l` determined by the random
    source (`shuffle_perm` below proves it is always a permutation). -/
def shuffle (g : Nat) (l : List α) : List α × Nat := shuffleGo l.length g l

/-- The pool collected by `clone_and_randomize`: the concatenation, in
    seating order, of the hands of the players other than `observer`. -/
def unseen_cards (s : Coinche) (observer : Fin 4) : List Card :=
  ((List.finRange 4).filter (fun p => p ≠ observer)).flatMap (fun p => s.player_hands p)

/-- The redistribution loop of `clone_and_randomize`: for p in 0..3,
    skipping the observer, give player p the first `len(self.player_hands[p])`
    cards of the pool and drop them from the pool. Returns the new hands
    and the leftover pool. -/
def dealUnseen (orig : Fin 4 → List Card) (observer : Fin 4) (pool : List Card) :
    (Fin 4 → List Card) × List Card :=
  (List.finRange 4).foldl
    (fun acc p =>
      if p = observer then acc
      else
        let num_cards := (orig p).length
        (fun q => if q = p then acc.2.take num_cards else acc.1 q, acc.2.drop num_cards))
    (orig, pool)

/-- `Coinche.clone_and_randomize(observer)` with the shuffled pool passed
    explicitly: clone the state and redistribute the given pool to the
    non-observer players, preserving each original hand size. Quantifying
    over `pool` ranging over the permutations of `unseen_cards` covers
    every outcome of `random.shuffle`. -/
def clone_and_randomize_with (s : Coinche) (observer : Fin 4) (pool : List Card) : Coinche :=
  { s with player_hands := (dealUnseen s.player_hands observer pool).1 }

/-- `Coinche.clone_and_randomize(observer)` (identical in both variants):
    shuffle the unseen cards with the random source and redistribute. -/
def clone_and_randomize (s : Coinche) (observer : Fin 4) (g : Nat) : Coinche × Nat :=
  let shuffled := shuffle g (unseen_cards s observer)
  (clone_and_randomize_with s observer shuffled.1, shuffled.2)

/-- Apply `do_move` along a list of cards; `none` as soon as a move
    raises. -/
def play (s : Coinche) : List Card → Option Coinche
  | [] => some s
  | m :: ms =>
    match s.do_move m with
    | some s' => play s' ms
    | none => none

/-- A node of the ISMCTS search tree (`class Node`): accumulated wins,
    visit count, availability count, and the children. A child's `move`
    and `player_just_moved` (always actual values for non-root nodes, and
    `None` exactly at the root) label the edge leading to it, so the root
    is the one tree with no incoming edge. The non-owning `parentNode`
    back-reference, used only by backpropagation, is realised by the
    recursion structure of `walk` below. -/
inductive Node where
  | mk (wins : Nat) (visits : Nat) (avails : Nat)
       (children : List (Card × Fin 4 × Node))

/-- Accumulated result backpropagated through this node. -/
def Node.wins : Node → Nat
  | .mk w _ _ _ => w

/-- Number of backpropagations through this node. -/
def Node.visits : Node → Nat
  | .mk _ v _ _ => v

/-- Number of times this node was available during selection
    (initialised to 1 by `Node.__init__`). -/
def Node.avails : Node → Nat
  | .mk _ _ a _ => a

/-- The child edges of this node. -/
def Node.children : Node → List (Card × Fin 4 × Node)
  | .mk _ _ _ cs => cs

/-- Replace the children list, keeping the statistics. -/
def Node.setChildren : Node → List (Card × Fin 4 × Node) → Node
  | .mk w v a _, cs => .mk w v a cs

/-- `child.avails += 1`, done by `ucb_select_child` for every legal
    child. -/
def Node.bumpAvails : Node → Node
  | .mk w v a cs => .mk w v (a + 1) cs

/-- The statistics triple (wins, visits, avails) the UCB1 formula reads. -/
def Node.stats : Node → Nat × Nat × Nat
  | .mk w v a _ => (w, v, a)

/-- `Node.update(terminal_state)`: increment visits, and add the
    terminal result for `player_just_moved` to wins when the node
    records a mover (every node but the root does). -/
def Node.update (t : Node) (pjm : Option (Fin 4)) (terminal_state : Coinche) : Node :=
  match t with
  | .mk w v a cs =>
    .mk (w + match pjm with | some p => terminal_state.get_result p | none => 0) (v + 1) a cs

/-- `Node.get_untried_moves(legal_moves)`: the legal moves for which the
    node has no child. -/
def Node.get_untried_moves (t : Node) (legal_moves : List Card) : List Card :=
  let tried_moves := t.children.map (fun e => e.1)
  legal_moves.filter (fun m => !tried_moves.contains m)

/-- The selection policy abstracted from `ucb_select_child`'s
    floating-point UCB1 argmax: given the (wins, visits, avails) triples
    of the legal children, an index into that list. Quantifying theorems
    over every such function covers the concrete UCB1 policy (whose
    float arithmetic itself is outside the embedding). -/
abbrev SelFun := List (Nat × Nat × Nat) → Nat

/-- Descend into the first child edge carrying the given move, replace
    its subtree by the result of `f`, and pass the byproducts (terminal
    state, random source) through. Models following the object reference
    of the child `ucb_select_child` returned (a node's children carry
    pairwise distinct moves, so first-match is exact). -/
def descendFirst (f : Fin 4 → Node → Option (Node × Coinche × Nat)) (m : Card) :
    List (Card × Fin 4 × Node) → Option (List (Card × Fin 4 × Node) × Coinche × Nat)
  | [] => none
  | e :: es =>
    if e.1 = m then
      (f e.2.1 e.2.2).map (fun r => ((e.1, e.2.1, r.1) :: es, r.2.1, r.2.2))
    else
      (descendFirst f m es).map (fun r => (e :: r.1, r.2.1, r.2.2))

/-- Total number of cards still held. -/
def totalHandSize (s : Coinche) : Nat :=
  ((List.finRange 4).map (fun p => (s.player_hands p).length)).sum

/-- The simulation loop of `ismcts`: while the state is non-terminal,
    play a uniformly random legal move. Fuelled by the hand-size bound
    (each applied move removes a card, so the fuel below never runs
    out); the `none` result of `do_move` cannot occur since the chosen
    move is legal, and is answered by returning the state unchanged. -/
def simulateGo : Nat → Coinche → Nat → Coinche × Nat
  | 0, st, g => (st, g)
  | fuel + 1, st, g =>
    match st.get_moves with
    | [] => (st, g)
    | m :: ms =>
      let r := randStep g
      match st.do_move ((m :: ms).get ⟨r.1 % (m :: ms).length, Nat.mod_lt _ (Nat.succ_pos _)⟩) with
      | some st' => simulateGo fuel st' r.2
      | none => (st, g)

/-- `random.choice(state.get_moves())` rollout until the round is over. -/
def simulate (st : Coinche) (g : Nat) : Coinche × Nat :=
  simulateGo (totalHandSize st + 1) st g

/-- One ISMCTS iteration from a determinized state: the Select loop
    (while non-terminal and fully expanded, pick a child by the
    selection policy, bump every legal child's avails, apply the child's
    move), then Expand (attach one random untried move), Simulate, and
    Backpropagate (each recursion level applies `Node.update` with the
    terminal state on the way back up, from the expanded node to the
    root). The fuel only bounds the select-descent depth (at most the
    tree height); `none` models both fuel exhaustion and the unreachable
    Python exceptions (`max([])`, `list.remove` on an absent card). -/
def walk (sel : SelFun) : Nat → Option (Fin 4) → Node → Coinche → Nat →
    Option (Node × Coinche × Nat)
  | 0, _, _, _, _ => none
  | fuel + 1, pjm, t, st, g =>
    let legal := st.get_moves
    let untried := t.get_untried_moves legal
    if legal ≠ [] ∧ untried = [] then
      let legal_children := t.children.filter (fun e => legal.contains e.1)
      match legal_children[sel (legal_children.map (fun e => e.2.2.stats)) % legal_children.length]? with
      | none => none
      | some chosen =>
        let bumped := t.children.map
          (fun e => if legal.contains e.1 then (e.1, e.2.1, e.2.2.bumpAvails) else e)
        match descendFirst
            (fun p' t' => (st.do_move chosen.1).bind (fun st' => walk sel fuel (some p') t' st' g))
            chosen.1 bumped with
        | none => none
        | some r => some ((t.setChildren r.1).update pjm r.2.1, r.2.1, r.2.2)
    else if huntried : untried ≠ [] then
      let r := randStep g
      let m := untried.get ⟨r.1 % untried.length, Nat.mod_lt _ (List.length_pos.mpr huntried)⟩
      let player := st.player_to_move
      match st.do_move m with
      | none => none
      | some st' =>
        let sim := simulate st' r.2
        let child := (Node.mk 0 0 1 []).update (some player) sim.1
        some ((t.setChildren (t.children ++ [(m, player, child)])).update pjm sim.1, sim.1, sim.2)
    else
      some (t.update pjm st, st, g)

/-- `Node()`: the fresh root (wins 0, visits 0, avails 1, no children). -/
def rootNode : Node := .mk 0 0 1 []

/-- The iteration loop of `ismcts`: determinize from the root mover's
    viewpoint, then run one `walk` on the shared tree. `F` is the fuel
    handed to each `walk`. -/
def iterLoop (sel : SelFun) (rootstate : Coinche) (F : Nat) :
    Nat → Node → Nat → Option (Node × Nat)
  | 0, t, g => some (t, g)
  | n + 1, t, g =>
    let det := clone_and_randomize rootstate rootstate.player_to_move g
    match walk sel F none t det.1 det.2 with
    | none => none
    | some r => iterLoop sel rootstate F n r.1 r.2.2

/-- `max(rootnode.child_nodes, key=lambda c: c.visits)`: Python's `max`
    keeps the first element and replaces it only on a strictly greater
    key. -/
def bestChild : (Card × Fin 4 × Node) → List (Card × Fin 4 × Node) → Card × Fin 4 × Node
  | best, [] => best
  | best, e :: es => bestChild (if best.2.2.visits < e.2.2.visits then e else best) es

/-- The final move choice of `ismcts`; `none` models the `ValueError` of
    `max` on an empty children list. -/
def bestMove : List (Card × Fin 4 × Node) → Option Card
  | [] => none
  | e :: es => some (bestChild e es).1

/-- `ismcts(rootstate, itermax)`: run `itermax` iterations from a fresh
    root and return the most-visited root move. Each `walk` gets fuel
    `itermax + 2`, which exceeds the tree height at every iteration
    (`walk_isSome` below), so the fuel never runs out. -/
def ismcts (sel : SelFun) (rootstate : Coinche) (itermax : Nat) (g : Nat) : Option Card :=
  match iterLoop sel rootstate (itermax + 2) itermax rootNode g with
  | none => none
  | some r => bestMove r.1.children

/-! Concrete states, auxiliary predicates and measures used by the
    theorems below. -/

/-- The state of the spec's trick-resolution example just before the
    fourth card: trump ♥, trick (P0, 7♦), (P1, A♦), (P2, J♥), P3 to play
    9♥; P2 still holds a card, so the last-trick bonus does not apply. -/
def c6State : Coinche :=
  { player_to_move := 3
    player_hands := fun p =>
      if p = 3 then [⟨9, .hearts⟩] else if p = 2 then [⟨7, .spades⟩] else []
    atout := .hearts
    current_cards := [(0, ⟨7, .diamonds⟩), (1, ⟨14, .diamonds⟩), (2, ⟨11, .hearts⟩)]
    current_round := 1
    current_scores := (0, 0)
    scores := (0, 0) }

/-- The same trick completed (as `do_move` builds it: 9♥ appended, the
    hand of P3 emptied, mover set to the winner P2). -/
def c6Full : Coinche :=
  { c6State with
    current_cards := c6State.current_cards ++ [(3, ⟨9, .hearts⟩)]
    player_hands := fun p => if p = 2 then [⟨7, .spades⟩] else []
    player_to_move := 2 }

/-- A concrete follow-suit situation: trick led with 8♥, the mover holds
    A♥, 7♥ and an off-suit card. -/
def c3State : Coinche :=
  { player_to_move := 1
    player_hands := fun p =>
      if p = 1 then [⟨14, .hearts⟩, ⟨8, .diamonds⟩, ⟨7, .hearts⟩] else []
    atout := .spades
    current_cards := [(0, ⟨8, .hearts⟩)]
    current_round := 1
    current_scores := (0, 0)
    scores := (0, 0) }

/-- Modelled from the spec's wording ("the highest trump value played so
    far in this trick"): the maximum value among the trump cards of the
    current trick, `none` when no trump has been played. Compared against
    the code's `sorted_atout_played[-1]`. -/
def specMaxPlayedTrump (s : Coinche) : Option Nat :=
  ((s.current_cards.filter (fun pc => pc.2.suit == s.atout)).map
    (fun pc => pc.2.value s.atout)).max?

/-- A concrete overtrump situation: trump ♠, trick 8♥ (lead) then 10♠;
    the mover holds J♠ (overtrumps, value 20 > 10), 7♠ (value 0) and an
    off-suit 8♦, and cannot follow hearts. -/
def c1State : Coinche :=
  { player_to_move := 2
    player_hands := fun p =>
      if p = 2 then [⟨11, .spades⟩, ⟨7, .spades⟩, ⟨8, .diamonds⟩] else []
    atout := .spades
    current_cards := [(0, ⟨8, .hearts⟩), (1, ⟨10, .spades⟩)]
    current_round := 1
    current_scores := (0, 0)
    scores := (0, 0) }

/-- The frame/conservation contract of the determinizer: the observer's
    hand, the current trick, the trump suit, both score lists, the mover
    and the round counter are unchanged; every hand keeps its size; and
    the non-observer card pool is preserved as a multiset. -/
def CloneFrameOk (s : Coinche) (observer : Fin 4) (s' : Coinche) : Prop :=
  s'.player_hands observer = s.player_hands observer ∧
  s'.current_cards = s.current_cards ∧
  s'.atout = s.atout ∧
  s'.current_scores = s.current_scores ∧
  s'.scores = s.scores ∧
  s'.player_to_move = s.player_to_move ∧
  s'.current_round = s.current_round ∧
  (∀ p, (s'.player_hands p).length = (s.player_hands p).length) ∧
  (unseen_cards s' observer).Perm (unseen_cards s observer)

/-- A concrete four-player state for the determinizer witness. -/
def c7State : Coinche :=
  { player_to_move := 0
    player_hands := fun p =>
      if p = 0 then [⟨7, .spades⟩]
      else if p = 1 then [⟨8, .spades⟩, ⟨9, .hearts⟩]
      else if p = 2 then [⟨10, .clubs⟩] else [⟨14, .diamonds⟩]
    atout := .spades
    current_cards := []
    current_round := 1
    current_scores := (0, 0)
    scores := (0, 0) }

/-- The seating-order run of the `n` players that played before
    `player_to_move` in the current trick: `[ptm - n, …, ptm - 1]`. -/
def prevRun (ptm : Fin 4) : Nat → List (Fin 4)
  | 0 => []
  | n + 1 => prevRun (ptm - 1) n ++ [ptm - 1]

/-- Total card points still held in the four hands. -/
def handsPoints (s : Coinche) : Nat :=
  ((List.finRange 4).map
    (fun p => ((s.player_hands p).map (fun c => c.value s.atout)).sum)).sum

/-- Card points lying in the current trick. -/
def trickPoints (s : Coinche) : Nat :=
  (s.current_cards.map (fun pc => pc.2.value s.atout)).sum

/-- The two teams' round scores added together. -/
def scoreSum (s : Coinche) : Nat := s.current_scores.1 + s.current_scores.2

/-- The state invariant of a round in progress: after `q` completed
    tricks and `r` further plays, the trick holds the `r` cards played,
    in seating order, by the `r` players right before the mover; every
    hand holds `8 - q` cards minus one if that player already played in
    this trick; and the two round scores, the held card points and the
    trick's card points add up to 152 (plus the 10-point bonus once the
    eighth trick has been scored). -/
structure RoundInv (q r : Nat) (s : Coinche) : Prop where
  trick_len : s.current_cards.length = r
  r_le : r ≤ 3
  players_eq : s.current_cards.map Prod.fst = prevRun s.player_to_move r
  hand_card_count : ∀ p : Fin 4,
    (s.player_hands p).length + q + (prevRun s.player_to_move r).count p = 8
  points_eq : scoreSum s + handsPoints s + trickPoints s =
    152 + (if 8 ≤ q then 10 else 0)

/-- A concrete full deal: the deck dealt in order, 8 cards per player,
    trump ♥. -/
def c5State : Coinche :=
  { player_to_move := 0
    player_hands := fun p => (get_card_deck.drop (8 * p.val)).take 8
    atout := .hearts
    current_cards := []
    current_round := 1
    current_scores := (0, 0)
    scores := (0, 0) }

/-- A complete concrete round on `c5State`: each mover plays the first
    card of their hand. -/
def c5Moves : List Card :=
  [⟨7, .spades⟩, ⟨9, .spades⟩, ⟨11, .spades⟩, ⟨13, .spades⟩,
   ⟨13, .diamonds⟩, ⟨7, .diamonds⟩, ⟨9, .diamonds⟩, ⟨11, .diamonds⟩,
   ⟨13, .hearts⟩, ⟨7, .hearts⟩, ⟨9, .hearts⟩, ⟨11, .hearts⟩,
   ⟨11, .clubs⟩, ⟨13, .clubs⟩, ⟨7, .clubs⟩, ⟨9, .clubs⟩,
   ⟨14, .spades⟩, ⟨8, .spades⟩, ⟨10, .spades⟩, ⟨12, .spades⟩,
   ⟨14, .diamonds⟩, ⟨8, .diamonds⟩, ⟨10, .diamonds⟩, ⟨12, .diamonds⟩,
   ⟨14, .hearts⟩, ⟨8, .hearts⟩, ⟨10, .hearts⟩, ⟨12, .hearts⟩,
   ⟨14, .clubs⟩, ⟨8, .clubs⟩, ⟨10, .clubs⟩, ⟨12, .clubs⟩]

/-- The state reached after the witness round. -/
def c5Final : Coinche := (play c5State c5Moves).get (by decide)

/-- The per-node statistics invariant for every node below the root:
    each child edge's node has at least as many availability counts as
    visits, recursively. The root itself carries no incoming edge and is
    exempt. -/
inductive SubOk : Node → Prop where
  | mk (w v a : Nat) (cs : List (Card × Fin 4 × Node))
      (hstat : ∀ e ∈ cs, e.2.2.visits ≤ e.2.2.avails)
      (hrec : ∀ e ∈ cs, SubOk e.2.2) :
      SubOk (.mk w v a cs)

mutual

/-- The height of a search-tree node (1 for a leaf); it bounds the
    recursion depth of `walk` and is used only in proofs. -/
def nodeHeight : Node → Nat
  | .mk _ _ _ cs => 1 + heightChildren cs

/-- The maximal height among a list of child edges. -/
def heightChildren : List (Card × Fin 4 × Node) → Nat
  | [] => 0
  | e :: es => max (nodeHeight e.2.2) (heightChildren es)

end

/-- A concrete selection policy (always the first legal child), standing
    in for the floating-point UCB1 argmax in concrete runs. -/
def selFirst : SelFun := fun _ => 0

/-- A tiny concrete root state: one spade per hand, trump ♠. -/
def c8State : Coinche :=
  { player_to_move := 0
    player_hands := fun p =>
      if p = 0 then [⟨7, .spades⟩] else if p = 1 then [⟨8, .spades⟩]
      else if p = 2 then [⟨9, .spades⟩] else [⟨10, .spades⟩]
    atout := .spades
    current_cards := []
    current_round := 1
    current_scores := (0, 0)
    scores := (0, 0) }

/-! Helper lemmas and the claim theorems. -/

/-- C2: in the `src/coinche/coinche.py` variant every `do_move` call
    raises `AttributeError` — its first statement reads the undefined
    attribute `moves_history` (the constructor defines `move_history`) —
    so the call produces no new state (hands, current trick, scores and
    `player_to_move` are untouched: the access precedes every mutation)
    and no move can ever be applied in this variant. -/
theorem do_move_cc_always_raises (s : Coinche) (move : Card) :
    do_move_cc s move = Except.error "AttributeError: moves_history" ∧
      ∀ s' : Coinche, do_move_cc s move ≠ Except.ok s' := by
  have h : do_move_cc s move = Except.error "AttributeError: moves_history" := rfl
  exact ⟨h, fun s' hc => by rw [h] at hc; exact Except.noConfusion hc⟩

/-- C4 counterexample: the trump-value table is not injective over the 8
    rank entries (ranks 7 and 8 both map to 0), nor is the non-trump
    table (ranks 7, 8 and 9 all map to 0). -/
theorem value_tables_not_injective :
    atout_values 7 = atout_values 8 ∧ (7 : Nat) ≠ 8 ∧
      non_atout_values 8 = non_atout_values 9 ∧ (8 : Nat) ≠ 9 := by
  decide

/-- C4 (amended): each value table is injective on the ranks with a
    nonzero point value; the value-0 entries collide (trump table: ranks
    7 and 8; non-trump table: ranks 7, 8 and 9), so two cards of a
    compared suit can tie in value — `get_trick_winner` then resolves the
    tie by the order of the stable value sort, not by rank. -/
theorem value_tables_injective_on_positive :
    (∀ r₁ r₂ : Fin 15,
        atout_values r₁ = atout_values r₂ → atout_values r₁ ≠ 0 → (r₁ : Nat) = r₂) ∧
      (∀ r₁ r₂ : Fin 15,
        non_atout_values r₁ = non_atout_values r₂ → non_atout_values r₁ ≠ 0 →
          (r₁ : Nat) = r₂) ∧
      atout_values 7 = 0 ∧ atout_values 8 = 0 ∧
      non_atout_values 7 = 0 ∧ non_atout_values 8 = 0 ∧ non_atout_values 9 = 0 := by
  decide

/-- Witness for `value_tables_injective_on_positive` at concrete ranks. -/
theorem value_tables_injective_on_positive_witness : (11 : Nat) = 11 ∧ (14 : Nat) = 14 :=
  ⟨value_tables_injective_on_positive.1 11 11 rfl (by decide),
   value_tables_injective_on_positive.2.1 14 14 rfl (by decide)⟩

/-- C6: on that trick the winner is P2 (J♥ = 20 beats 9♥ = 14, and the
    trump plays beat both diamonds), the trick total is
    0 + 11 + 20 + 14 = 45, and applying the fourth move credits the 45
    points to team 0 (P2's team), resets the trick and hands the lead to
    P2. -/
theorem trick_resolution_example :
    c6Full.get_trick_winner = some 2 ∧ c6Full.score = 45 ∧
      (c6State.do_move ⟨9, .hearts⟩).map
          (fun s' => (s'.current_scores, s'.player_to_move, s'.current_cards)) =
        some ((45, 0), 2, []) := by
  decide

/-- C3: when the trick is non-empty and the mover holds at least one
    card of the lead suit, both variants' `get_moves` return exactly the
    mover's cards of the lead suit — literally the hand filtered on that
    suit, so every returned card has the lead suit and no held card of
    the lead suit is omitted. -/
theorem follow_suit_exact (s : Coinche) (leader : Fin 4) (lead_card : Card)
    (rest : List (Fin 4 × Card))
    (htrick : s.current_cards = (leader, lead_card) :: rest)
    (hfollow : (s.player_hands s.player_to_move).filter
        (fun c => c.suit == lead_card.suit) ≠ []) :
    s.get_moves = (s.player_hands s.player_to_move).filter
        (fun c => c.suit == lead_card.suit) ∧
      get_moves_cc s = (s.player_hands s.player_to_move).filter
        (fun c => c.suit == lead_card.suit) ∧
      ∀ c, c ∈ s.get_moves ↔
        c ∈ s.player_hands s.player_to_move ∧ c.suit = lead_card.suit := by
  have hne : ((s.player_hands s.player_to_move).filter
      (fun c => c.suit == lead_card.suit)).isEmpty = false :=
    List.isEmpty_eq_false.mpr hfollow
  have h1 : s.get_moves = (s.player_hands s.player_to_move).filter
      (fun c => c.suit == lead_card.suit) := by
    simp only [Coinche.get_moves, htrick, hne]
    simp
  refine ⟨h1, ?_, ?_⟩
  · simp only [get_moves_cc, htrick, hne]
    simp
  · intro c
    rw [h1, List.mem_filter]
    simp [beq_iff_eq]

/-- Witness for `follow_suit_exact` on `c3State`. -/
theorem follow_suit_exact_witness :
    c3State.get_moves = [⟨14, .hearts⟩, ⟨7, .hearts⟩] ∧
      (⟨8, .diamonds⟩ : Card) ∉ c3State.get_moves := by
  have h := follow_suit_exact c3State 0 ⟨8, .hearts⟩ [] (by decide) (by decide)
  refine ⟨by rw [h.1]; decide, fun hc => ?_⟩
  have := ((h.2.2 ⟨8, .diamonds⟩).mp hc).2
  simp at this

/-! Stable-sort facts used by the overtrump analysis. -/

/-- The value sort is a permutation of its input. -/
theorem sortedByKey_perm (key : α → Nat) (l : List α) : (sortedByKey key l).Perm l :=
  List.perm_insertionSort _ l

/-- The last element of the value-sorted list is an input element of
    maximal key — the fact `get_moves_cc` and `get_trick_winner` rely on
    when they read `sorted(...)[-1]`. -/
theorem sortedByKey_getLast_max (key : α → Nat) (l : List α) (x : α)
    (h : (sortedByKey key l).getLast? = some x) :
    x ∈ l ∧ ∀ y ∈ l, key y ≤ key x := by
  have hperm := sortedByKey_perm key l
  have hne : sortedByKey key l ≠ [] := by
    intro h0
    rw [h0] at h
    exact Option.noConfusion h
  have hsorted : List.Sorted (fun a b => key a ≤ key b) (sortedByKey key l) := by
    haveI : IsTotal α (fun a b => key a ≤ key b) := ⟨fun a b => Nat.le_total _ _⟩
    haveI : IsTrans α (fun a b => key a ≤ key b) := ⟨fun a b c => Nat.le_trans⟩
    exact List.sorted_insertionSort _ l
  have hx : (sortedByKey key l).getLast hne = x := by
    rw [List.getLast?_eq_getLast _ hne] at h
    exact Option.some.inj h
  have hmem : x ∈ sortedByKey key l := hx ▸ List.getLast_mem hne
  refine ⟨hperm.mem_iff.mp hmem, fun y hy => ?_⟩
  have hy' : y ∈ sortedByKey key l := hperm.mem_iff.mpr hy
  have hdecomp : (sortedByKey key l).dropLast ++ [x] = sortedByKey key l := by
    rw [← hx]
    exact List.dropLast_append_getLast hne
  rw [← hdecomp] at hsorted hy'
  rcases List.mem_append.mp hy' with hmem' | hmem'
  · exact (List.pairwise_append.mp hsorted).2.2 y hmem' x (List.mem_singleton.mpr rfl)
  · rw [List.mem_singleton.mp hmem']

/-- C1 (amended to the `src/coinche/coinche.py` variant): when the trick
    is non-empty, the mover cannot follow the lead suit but holds at
    least one trump, `get_moves_cc` returns exactly the held trumps whose
    value strictly exceeds the highest trump value played so far in this
    trick whenever a trump was played and such an overtrumping card is
    held; exactly all held trumps otherwise; and in particular never the
    empty set. -/
theorem overtrump_exact (s : Coinche) (leader : Fin 4) (lead_card : Card)
    (rest : List (Fin 4 × Card))
    (htrick : s.current_cards = (leader, lead_card) :: rest)
    (hnofollow : (s.player_hands s.player_to_move).filter
        (fun c => c.suit == lead_card.suit) = [])
    (hatout : (s.player_hands s.player_to_move).filter
        (fun c => c.suit == s.atout) ≠ []) :
    (∀ M, specMaxPlayedTrump s = some M →
      ((s.player_hands s.player_to_move).filter
          (fun c => c.suit == s.atout && M < c.value s.atout) ≠ [] →
        get_moves_cc s = (s.player_hands s.player_to_move).filter
          (fun c => c.suit == s.atout && M < c.value s.atout)) ∧
      ((s.player_hands s.player_to_move).filter
          (fun c => c.suit == s.atout && M < c.value s.atout) = [] →
        get_moves_cc s = (s.player_hands s.player_to_move).filter
          (fun c => c.suit == s.atout))) ∧
    (specMaxPlayedTrump s = none →
      get_moves_cc s = (s.player_hands s.player_to_move).filter
        (fun c => c.suit == s.atout)) ∧
    get_moves_cc s ≠ [] := by
  obtain ⟨ptm, hands, atout, cur, cr, csc, scs⟩ := s
  dsimp only at htrick hnofollow hatout ⊢
  subst htrick
  have hnf : ((hands ptm).filter (fun c => c.suit == lead_card.suit)).isEmpty = true :=
    List.isEmpty_iff.mpr hnofollow
  have hat : ((hands ptm).filter (fun c => c.suit == atout)).isEmpty = false :=
    List.isEmpty_eq_false.mpr hatout
  simp only [get_moves_cc, specMaxPlayedTrump, hnf, hat, Bool.not_eq_true, Bool.false_eq_true,
    not_false_eq_true, if_true, if_false, ite_not]
  by_cases hfil : List.filter (fun pc => pc.2.suit == atout) ((leader, lead_card) :: rest) = []
  · have hnone : (sortedByKey (fun c => c.value atout)
        (List.map Prod.snd
          (List.filter (fun pc => pc.2.suit == atout) ((leader, lead_card) :: rest)))).getLast? =
        none := by
      rw [hfil]
      rfl
    rw [hnone, hfil]
    simp only [List.map_nil, List.max?_nil]
    exact ⟨fun M hM => absurd hM (by simp), fun _ => by simp, hatout⟩
  · have hmapne : List.map Prod.snd
        (List.filter (fun pc => pc.2.suit == atout) ((leader, lead_card) :: rest)) ≠ [] := by
      simpa using hfil
    have hsne : sortedByKey (fun c => c.value atout)
        (List.map Prod.snd
          (List.filter (fun pc => pc.2.suit == atout) ((leader, lead_card) :: rest))) ≠ [] := by
      intro h0
      have hp := sortedByKey_perm (fun c => c.value atout)
        (List.map Prod.snd
          (List.filter (fun pc => pc.2.suit == atout) ((leader, lead_card) :: rest)))
      rw [h0] at hp
      exact hmapne hp.symm.eq_nil
    obtain ⟨top, hlast⟩ := Option.isSome_iff_exists.mp (List.getLast?_isSome.mpr hsne)
    obtain ⟨htopmem, htopmax⟩ := sortedByKey_getLast_max _ _ _ hlast
    have hsome : (List.map (fun pc => pc.2.value atout)
        (List.filter (fun pc => pc.2.suit == atout) ((leader, lead_card) :: rest))).max? =
        some (top.value atout) := by
      have hmm : List.map (fun pc => pc.2.value atout)
          (List.filter (fun pc => pc.2.suit == atout) ((leader, lead_card) :: rest)) =
          List.map (fun c => c.value atout) (List.map Prod.snd
            (List.filter (fun pc => pc.2.suit == atout) ((leader, lead_card) :: rest))) := by
        rw [List.map_map]
        rfl
      rw [hmm, List.max?_eq_some_iff']
      refine ⟨List.mem_map_of_mem _ htopmem, fun b hb => ?_⟩
      rcases List.mem_map.mp hb with ⟨y, hy, rfl⟩
      exact htopmax y hy
    rw [hlast, hsome]
    dsimp only
    have hbfilter : List.filter (fun c => decide (top.value atout < c.value atout))
        (List.filter (fun c => c.suit == atout) (hands ptm)) =
        List.filter (fun c => c.suit == atout && decide (top.value atout < c.value atout))
          (hands ptm) := by
      rw [List.filter_filter]
      exact List.filter_congr (fun a _ => Bool.and_comm _ _)
    refine ⟨fun M hM => ?_, fun hM => absurd hM (by simp), ?_⟩
    · rcases Option.some.inj hM with rfl
      constructor
      · intro hne
        have hemp' : (List.filter (fun c => decide (top.value atout < c.value atout))
            (List.filter (fun c => c.suit == atout) (hands ptm))).isEmpty = false := by
          rw [hbfilter]
          exact List.isEmpty_eq_false.mpr hne
        rw [if_pos hemp', hbfilter]
      · intro hemp
        have hemp' : (List.filter (fun c => decide (top.value atout < c.value atout))
            (List.filter (fun c => c.suit == atout) (hands ptm))).isEmpty = true := by
          rw [hbfilter]
          exact List.isEmpty_iff.mpr hemp
        rw [if_neg (by rw [hemp']; simp)]
    · by_cases hb : (List.filter (fun c => decide (top.value atout < c.value atout))
          (List.filter (fun c => c.suit == atout) (hands ptm))).isEmpty = false
      · rw [if_pos hb]
        exact List.isEmpty_eq_false.mp hb
      · rw [if_neg hb]
        exact hatout

/-- Witness for `overtrump_exact` on `c1State`: only the overtrumping J♠
    is legal in the `src/coinche/coinche.py` variant. -/
theorem overtrump_exact_witness : get_moves_cc c1State = [⟨11, .spades⟩] := by
  have h := overtrump_exact c1State 0 ⟨8, .hearts⟩ [(1, ⟨10, .spades⟩)]
    (by decide) (by decide) (by decide)
  have h2 := (h.1 10 (by decide)).1 (by decide)
  rw [h2]
  decide

/-- C1 counterexample: the `src/ismcts.py` variant's `get_moves` has no
    overtrump filter. On `c1State` every hypothesis of the claim holds
    and J♠ is the unique overtrumping card, yet that variant returns both
    held trumps instead of exactly the overtrumping ones. -/
theorem overtrump_missing_in_ismcts_variant :
    c1State.current_cards.head?.map (fun pc => pc.2.suit) = some Suit.hearts ∧
      (c1State.player_hands c1State.player_to_move).filter
        (fun c => c.suit == Suit.hearts) = [] ∧
      (c1State.player_hands c1State.player_to_move).filter
        (fun c => c.suit == c1State.atout) ≠ [] ∧
      specMaxPlayedTrump c1State = some 10 ∧
      (c1State.player_hands c1State.player_to_move).filter
        (fun c => c.suit == c1State.atout && 10 < c.value c1State.atout) =
        [⟨11, .spades⟩] ∧
      c1State.get_moves = [⟨11, .spades⟩, ⟨7, .spades⟩] ∧
      c1State.get_moves ≠ [⟨11, .spades⟩] := by
  decide

/-- The concrete value of `List.finRange 4`, used to unfold the loops
    over `range(4)`. -/
theorem finRange4 : List.finRange 4 = [0, 1, 2, 3] := by decide

/-- `clone_and_randomize` with an arbitrary permutation of the unseen
    pool satisfies the frame contract; in fact the redistributed hands
    concatenate back to exactly the shuffled pool. -/
theorem clone_and_randomize_with_frame (s : Coinche) (observer : Fin 4) (pool : List Card)
    (hperm : pool.Perm (unseen_cards s observer)) :
    CloneFrameOk s observer (clone_and_randomize_with s observer pool) := by
  obtain ⟨ptm, hands, atout, cur, cr, csc, scs⟩ := s
  have h4 : observer = 0 ∨ observer = 1 ∨ observer = 2 ∨ observer = 3 := by
    rcases observer with ⟨v, hv⟩
    interval_cases v <;> simp [Fin.ext_iff]
  rcases h4 with rfl | rfl | rfl | rfl
  · have hlen' := hperm.length_eq
    simp [unseen_cards, finRange4] at hlen'
    refine ⟨?_, rfl, rfl, rfl, rfl, rfl, rfl, ?_, ?_⟩
    · simp [clone_and_randomize_with, dealUnseen, finRange4]
    · intro p
      fin_cases p <;>
        simp [clone_and_randomize_with, dealUnseen, finRange4, List.length_take,
          List.length_drop] <;> omega
    · have hU : unseen_cards (clone_and_randomize_with
          ⟨ptm, hands, atout, cur, cr, csc, scs⟩ 0 pool) 0 = pool := by
        simp [unseen_cards, clone_and_randomize_with, dealUnseen, finRange4]
        have h3 : List.take (hands 3).length
            (List.drop ((hands 1).length + (hands 2).length) pool) =
            List.drop ((hands 1).length + (hands 2).length) pool :=
          List.take_of_length_le (by rw [List.length_drop]; omega)
        rw [h3, ← List.drop_drop, List.take_append_drop, List.take_append_drop]
      rw [hU]
      exact hperm
  · have hlen' := hperm.length_eq
    simp [unseen_cards, finRange4] at hlen'
    refine ⟨?_, rfl, rfl, rfl, rfl, rfl, rfl, ?_, ?_⟩
    · simp [clone_and_randomize_with, dealUnseen, finRange4]
    · intro p
      fin_cases p <;>
        simp [clone_and_randomize_with, dealUnseen, finRange4, List.length_take,
          List.length_drop] <;> omega
    · have hU : unseen_cards (clone_and_randomize_with
          ⟨ptm, hands, atout, cur, cr, csc, scs⟩ 1 pool) 1 = pool := by
        simp [unseen_cards, clone_and_randomize_with, dealUnseen, finRange4]
        have h3 : List.take (hands 3).length
            (List.drop ((hands 0).length + (hands 2).length) pool) =
            List.drop ((hands 0).length + (hands 2).length) pool :=
          List.take_of_length_le (by rw [List.length_drop]; omega)
        rw [h3, ← List.drop_drop, List.take_append_drop, List.take_append_drop]
      rw [hU]
      exact hperm
  · have hlen' := hperm.length_eq
    simp [unseen_cards, finRange4] at hlen'
    refine ⟨?_, rfl, rfl, rfl, rfl, rfl, rfl, ?_, ?_⟩
    · simp [clone_and_randomize_with, dealUnseen, finRange4]
    · intro p
      fin_cases p <;>
        simp [clone_and_randomize_with, dealUnseen, finRange4, List.length_take,
          List.length_drop] <;> omega
    · have hU : unseen_cards (clone_and_randomize_with
          ⟨ptm, hands, atout, cur, cr, csc, scs⟩ 2 pool) 2 = pool := by
        simp [unseen_cards, clone_and_randomize_with, dealUnseen, finRange4]
        have h3 : List.take (hands 3).length
            (List.drop ((hands 0).length + (hands 1).length) pool) =
            List.drop ((hands 0).length + (hands 1).length) pool :=
          List.take_of_length_le (by rw [List.length_drop]; omega)
        rw [h3, ← List.drop_drop, List.take_append_drop, List.take_append_drop]
      rw [hU]
      exact hperm
  · have hlen' := hperm.length_eq
    simp [unseen_cards, finRange4] at hlen'
    refine ⟨?_, rfl, rfl, rfl, rfl, rfl, rfl, ?_, ?_⟩
    · simp [clone_and_randomize_with, dealUnseen, finRange4]
    · intro p
      fin_cases p <;>
        simp [clone_and_randomize_with, dealUnseen, finRange4, List.length_take,
          List.length_drop] <;> omega
    · have hU : unseen_cards (clone_and_randomize_with
          ⟨ptm, hands, atout, cur, cr, csc, scs⟩ 3 pool) 3 = pool := by
        simp [unseen_cards, clone_and_randomize_with, dealUnseen, finRange4]
        have h3 : List.take (hands 2).length
            (List.drop ((hands 0).length + (hands 1).length) pool) =
            List.drop ((hands 0).length + (hands 1).length) pool :=
          List.take_of_length_le (by rw [List.length_drop]; omega)
        rw [h3, ← List.drop_drop, List.take_append_drop, List.take_append_drop]
      rw [hU]
      exact hperm

/-- `shuffle` always produces a permutation of its input. -/
theorem shuffleGo_perm : ∀ (n g : Nat) (l : List α), n = l.length →
    (shuffleGo n g l).1.Perm l
  | 0, _, l, h => by
    cases l with
    | nil => simp [shuffleGo]
    | cons x xs => simp at h
  | n + 1, g, l, h => by
    have hpos : 0 < l.length := by omega
    have hlt : g % l.length < l.length := Nat.mod_lt _ hpos
    rw [shuffleGo, List.getElem?_eq_getElem hlt]
    dsimp only
    have hlen2 : n = (l.eraseIdx (g % l.length)).length := by
      rw [List.length_eraseIdx]
      simp only [hlt, if_pos]
      omega
    have IH := shuffleGo_perm n (rngNext g) (l.eraseIdx (g % l.length)) hlen2
    have hsplit : (l[g % l.length] :: l.eraseIdx (g % l.length)).Perm l := by
      rw [List.eraseIdx_eq_take_drop_succ]
      conv_rhs => rw [← List.take_append_drop (g % l.length) l,
        List.drop_eq_getElem_cons hlt]
      exact List.perm_middle.symm
    exact (IH.cons _).trans hsplit

/-- C7: `clone_and_randomize(observer)` — for every outcome of the
    shuffle (first conjunct: any permutation of the unseen pool; second
    conjunct: the actual shuffled pool for any random seed) — keeps the
    observer's hand, the current trick, the trump suit, the scores, the
    mover and the round counter identical, keeps every non-observer hand
    size, and preserves the multiset of non-observer cards (no card
    created, lost or duplicated). -/
theorem clone_and_randomize_spec (s : Coinche) (observer : Fin 4) :
    (∀ pool, pool.Perm (unseen_cards s observer) →
      CloneFrameOk s observer (clone_and_randomize_with s observer pool)) ∧
    ∀ g, CloneFrameOk s observer (clone_and_randomize s observer g).1 :=
  ⟨fun pool hp => clone_and_randomize_with_frame s observer pool hp,
   fun _ => clone_and_randomize_with_frame s observer _ (shuffleGo_perm _ _ _ rfl)⟩

/-- Witness for `clone_and_randomize_spec`: a concrete reordered pool of
    the three unseen hands. -/
theorem clone_and_randomize_spec_witness :
    CloneFrameOk c7State 0 (clone_and_randomize_with c7State 0
      [⟨14, .diamonds⟩, ⟨8, .spades⟩, ⟨9, .hearts⟩, ⟨10, .clubs⟩]) :=
  (clone_and_randomize_spec c7State 0).1 _ (by decide)

/-! Round accounting: the 162-point invariant of a full round. -/

/-- Subtracting one element preserves a map-sum additively. -/
theorem erase_map_sum (f : Card → Nat) :
    ∀ (l : List Card) (a : Card), a ∈ l →
      ((l.erase a).map f).sum + f a = (l.map f).sum
  | [], a, h => absurd h (List.not_mem_nil a)
  | x :: xs, a, h => by
    rcases List.mem_cons.mp h with rfl | hxs
    · simp [List.erase_cons_head]
      omega
    · by_cases hax : x = a
      · subst hax
        simp [List.erase_cons_head]
        omega
      · rw [List.erase_cons_tail (by simpa using hax)]
        simp only [List.map_cons, List.sum_cons]
        have := erase_map_sum f xs a hxs
        omega

/-- Erasing a held card shortens the hand by exactly one. -/
theorem length_erase_add_one {l : List Card} {a : Card} (h : a ∈ l) :
    (l.erase a).length + 1 = l.length := by
  rw [List.length_erase_of_mem h]
  have := List.length_pos_of_mem h
  omega

/-- Changing one entry of a four-indexed family changes the total sum by
    the difference of that entry, with the other entries pointwise
    equal. -/
theorem finRange4_sum_update' (g' g : Fin 4 → Nat) (t : Fin 4)
    (h : ∀ p, p ≠ t → g' p = g p) :
    ((List.finRange 4).map g').sum + g t = ((List.finRange 4).map g).sum + g' t := by
  have h4 : t = 0 ∨ t = 1 ∨ t = 2 ∨ t = 3 := by
    rcases t with ⟨v, hv⟩
    interval_cases v <;> simp [Fin.ext_iff]
  rcases h4 with rfl | rfl | rfl | rfl <;>
    simp only [finRange4, List.map_cons, List.map_nil, List.sum_cons, List.sum_nil]
  · rw [h 1 (by decide), h 2 (by decide), h 3 (by decide)]
    omega
  · rw [h 0 (by decide), h 2 (by decide), h 3 (by decide)]
    omega
  · rw [h 0 (by decide), h 1 (by decide), h 3 (by decide)]
    omega
  · rw [h 0 (by decide), h 1 (by decide), h 2 (by decide)]
    omega

/-- Changing one entry of a four-indexed family changes the total sum by
    the difference of that entry. -/
theorem finRange4_sum_update (g : Fin 4 → Nat) (t : Fin 4) (x : Nat) :
    ((List.finRange 4).map (fun p => if p = t then x else g p)).sum + g t =
      ((List.finRange 4).map g).sum + x := by
  fin_cases t <;> simp [finRange4] <;> omega

/-- In `Fin 4`, adding then subtracting one is the identity. -/
theorem fin4_add_sub_one : ∀ x : Fin 4, x + 1 - 1 = x := by decide

/-- Extending the trick by the mover extends the run of players. -/
theorem prevRun_shift (ptm : Fin 4) (n : Nat) :
    prevRun (ptm + 1) (n + 1) = prevRun ptm n ++ [ptm] := by
  show prevRun (ptm + 1 - 1) n ++ [ptm + 1 - 1] = prevRun ptm n ++ [ptm]
  rw [fin4_add_sub_one]

/-- The mover has not yet played in the current trick. -/
theorem count_prevRun3_self : ∀ x : Fin 4, (prevRun x 3).count x = 0 := by decide

/-- Every other player occurs exactly once in a full run of three. -/
theorem count_prevRun3_ne : ∀ x p : Fin 4, p ≠ x → (prevRun x 3).count p = 1 := by decide

/-- Crediting one team raises the team total by the credited value. -/
theorem addTeamScore_sum (cs : Nat × Nat) (w : Fin 4) (v : Nat) :
    (addTeamScore cs w v).1 + (addTeamScore cs w v).2 = cs.1 + cs.2 + v := by
  rw [addTeamScore]
  split <;> simp <;> omega

/-- The full deck is worth 152 card points whatever the trump suit. -/
theorem deck_value_sum : ∀ a : Suit, (get_card_deck.map (fun c => c.value a)).sum = 152 := by
  intro a
  cases a <;> decide

/-- One `do_move` step preserves the round invariant: a non-completing
    play extends the trick, a completing play scores it (with the
    last-trick bonus exactly when the eighth trick completes). -/
theorem do_move_inv (q r : Nat) (s s' : Coinche) (m : Card)
    (hinv : RoundInv q r s) (hs : s.do_move m = some s') :
    RoundInv (if r = 3 then q + 1 else q) (if r = 3 then 0 else r + 1) s' := by
  obtain ⟨ptm, hands, atout, cur, cr, csc, scs⟩ := s
  obtain ⟨hr, hr3, hpl, hcnt, hpts⟩ := hinv
  dsimp only at hr hpl hcnt hpts hs ⊢
  have hlt : cur.length < 4 := by omega
  rw [Coinche.do_move] at hs
  dsimp only at hs
  rw [if_pos hlt] at hs
  by_cases hmem : m ∈ hands ptm
  case neg =>
    rw [if_neg hmem] at hs
    exact absurd hs (by simp)
  case pos =>
    rw [if_pos hmem] at hs
    have hlen2 : (cur ++ [(ptm, m)]).length = r + 1 := by simp [hr]
    by_cases hr4 : r = 3
    case pos =>
      rw [if_pos (by rw [hlen2, hr4]; omega)] at hs
      split at hs
      · exact absurd hs (by simp)
      · rename_i w heq
        obtain rfl := Option.some.inj hs
        simp only [if_pos hr4]
        have hq7 : q ≤ 7 := by
          have h2 := hcnt ptm
          have h1 := List.length_pos_of_mem hmem
          omega
        have hwlen : (if w = ptm then (hands w).erase m else hands w).length + q = 7 := by
          by_cases hwp : w = ptm
          · subst hwp
            have h1 := length_erase_add_one hmem
            have h2 := hcnt w
            rw [hr4, count_prevRun3_self] at h2
            simp only [eq_self_iff_true, if_true]
            omega
          · rw [if_neg hwp]
            have h2 := hcnt w
            rw [hr4, count_prevRun3_ne ptm w hwp] at h2
            omega
        refine ⟨rfl, by omega, rfl, ?_, ?_⟩
        · intro p
          dsimp only
          show (if p = ptm then (hands p).erase m else hands p).length + (q + 1) +
            List.count p (prevRun w 0) = 8
          simp only [prevRun, List.count_nil]
          by_cases hp : p = ptm
          · subst hp
            have h1 := length_erase_add_one hmem
            have h2 := hcnt p
            rw [hr4, count_prevRun3_self] at h2
            simp only [eq_self_iff_true, if_true]
            omega
          · rw [if_neg hp]
            have h2 := hcnt p
            rw [hr4, count_prevRun3_ne ptm p hp] at h2
            omega
        · dsimp only [scoreSum, handsPoints, trickPoints] at hpts ⊢
          rw [addTeamScore_sum]
          dsimp only [Coinche.score]
          have hup := finRange4_sum_update'
            (fun p => (((if p = ptm then (hands p).erase m else hands p)).map
              (fun c => c.value atout)).sum)
            (fun p => ((hands p).map (fun c => c.value atout)).sum) ptm
            (fun p hp => by dsimp only; rw [if_neg hp])
          simp only [eq_self_iff_true, if_true] at hup
          have her := erase_map_sum (fun c => c.value atout) (hands ptm) m hmem
          dsimp only at her hup
          rw [List.map_append, List.sum_append]
          simp only [List.map_cons, List.map_nil, List.sum_cons, List.sum_nil,
            List.map_nil, List.sum_nil]
          by_cases hq : q = 7
          · have hempty : (if w = ptm then (hands w).erase m else hands w) = [] := by
              rw [← List.length_eq_zero]
              omega
            rw [if_pos hempty]
            rw [if_pos (by omega : 8 ≤ q + 1)]
            rw [if_neg (by omega : ¬8 ≤ q)] at hpts
            omega
          · have hne : (if w = ptm then (hands w).erase m else hands w) ≠ [] := by
              intro h0
              have hl := congrArg List.length h0
              simp only [List.length_nil] at hl
              omega
            rw [if_neg hne]
            rw [if_neg (by omega : ¬8 ≤ q + 1)]
            rw [if_neg (by omega : ¬8 ≤ q)] at hpts
            omega
    case neg =>
      rw [if_neg (by rw [hlen2]; omega)] at hs
      obtain rfl := Option.some.inj hs
      rw [if_neg hr4, if_neg hr4]
      have hshift : prevRun (get_next_player ptm) (r + 1) = prevRun ptm r ++ [ptm] :=
        prevRun_shift ptm r
      refine ⟨hlen2, by omega, ?_, ?_, ?_⟩
      · dsimp only
        rw [hshift, List.map_append, hpl]
        rfl
      · intro p
        dsimp only
        rw [hshift, List.count_append]
        by_cases hp : p = ptm
        · subst hp
          have h1 := length_erase_add_one hmem
          have h2 := hcnt p
          simp only [eq_self_iff_true, if_true, beq_self_eq_true, List.count_singleton]
          omega
        · have h2 := hcnt p
          rw [if_neg hp]
          have hc0 : List.count p [ptm] = 0 := by
            simp [List.count_singleton, hp]
          omega
      · dsimp only [scoreSum, handsPoints, trickPoints] at hpts ⊢
        have hup := finRange4_sum_update'
          (fun p => (((if p = ptm then (hands p).erase m else hands p)).map
            (fun c => c.value atout)).sum)
          (fun p => ((hands p).map (fun c => c.value atout)).sum) ptm
          (fun p hp => by dsimp only; rw [if_neg hp])
        simp only [eq_self_iff_true, if_true] at hup
        have her := erase_map_sum (fun c => c.value atout) (hands ptm) m hmem
        dsimp only at her hup
        rw [List.map_append, List.sum_append]
        simp only [List.map_cons, List.map_nil, List.sum_cons, List.sum_nil]
        omega

/-- Applying a sequence of moves preserves the round invariant, with the
    trick/play counters advancing by one per move. -/
theorem play_inv : ∀ (ms : List Card) (q r : Nat) (s s' : Coinche),
    RoundInv q r s → play s ms = some s' →
    ∃ q' r', RoundInv q' r' s' ∧ 4 * q' + r' = 4 * q + r + ms.length
  | [], q, r, s, s', hinv, hp => by
    rw [play] at hp
    obtain rfl := Option.some.inj hp
    exact ⟨q, r, hinv, by simp⟩
  | m :: ms, q, r, s, s', hinv, hp => by
    rw [play] at hp
    cases hdm : s.do_move m with
    | none =>
      rw [hdm] at hp
      exact absurd hp (by simp)
    | some s1 =>
      rw [hdm] at hp
      have h1 := do_move_inv q r s s1 m hinv hdm
      have hrle := hinv.r_le
      obtain ⟨q', r', hinv', harith⟩ := play_inv ms _ _ s1 s' h1 hp
      refine ⟨q', r', hinv', ?_⟩
      simp only [List.length_cons]
      by_cases hr3 : r = 3
      · subst hr3
        simp only [eq_self_iff_true, if_true] at harith
        omega
      · simp only [if_neg hr3] at harith
        omega

/-- C5: starting from a full deal (each hand 8 cards, the four hands a
    permutation of the 32-card deck, empty trick, zeroed round scores),
    after any 32 applied moves — a complete round of 8 tricks — the two
    teams' round scores add up to exactly 162: the 152 card points of the
    deck plus the 10-point bonus of the trick that emptied the winner's
    hand. -/
theorem round_total_162 (s0 : Coinche) (ms : List Card) (s' : Coinche)
    (hhand : ∀ p, (s0.player_hands p).length = 8)
    (hdeck : (s0.player_hands 0 ++ s0.player_hands 1 ++ s0.player_hands 2 ++
      s0.player_hands 3).Perm get_card_deck)
    (htrick : s0.current_cards = [])
    (hscore : s0.current_scores = (0, 0))
    (hlen : ms.length = 32)
    (hplay : play s0 ms = some s') :
    s'.current_scores.1 + s'.current_scores.2 = 162 := by
  have hinv0 : RoundInv 0 0 s0 := by
    refine ⟨by rw [htrick]; rfl, by omega, by rw [htrick]; rfl, ?_, ?_⟩
    · intro p
      simp [prevRun, hhand p]
    · have hmapsum : handsPoints s0 =
          ((s0.player_hands 0 ++ s0.player_hands 1 ++ s0.player_hands 2 ++
            s0.player_hands 3).map (fun c => c.value s0.atout)).sum := by
        simp only [handsPoints, finRange4, List.map_cons, List.map_nil, List.sum_cons,
          List.sum_nil, List.map_append, List.sum_append]
        omega
      have hp152 : handsPoints s0 = 152 := by
        rw [hmapsum, ((hdeck.map (fun c => c.value s0.atout)).sum_eq :),
          deck_value_sum]
      rw [scoreSum, hscore, trickPoints, htrick, hp152]
      simp
  obtain ⟨q', r', hinv', harith⟩ := play_inv ms 0 0 s0 s' hinv0 hplay
  have hr'le := hinv'.r_le
  have hq8 : q' = 8 ∧ r' = 0 := by omega
  obtain ⟨rfl, rfl⟩ := hq8
  have hhe : ∀ p, s'.player_hands p = [] := by
    intro p
    have h2 := hinv'.hand_card_count p
    simp only [prevRun, List.count_nil] at h2
    exact List.length_eq_zero.mp (by omega)
  have hte : s'.current_cards = [] := by
    have h3 := hinv'.trick_len
    exact List.length_eq_zero.mp (by omega)
  have hp0 : handsPoints s' = 0 := by
    simp [handsPoints, finRange4, hhe]
  have ht0 : trickPoints s' = 0 := by
    simp [trickPoints, hte]
  have hfin := hinv'.points_eq
  rw [hp0, ht0, if_pos (le_refl 8)] at hfin
  simp only [scoreSum] at hfin
  omega

/-- Witness for `round_total_162` on the concrete round. -/
theorem round_total_162_witness :
    c5Final.current_scores.1 + c5Final.current_scores.2 = 162 :=
  round_total_162 c5State c5Moves c5Final (by decide) (by decide) rfl rfl (by decide)
    (Option.some_get _).symm

/-! Search-tree statistics: the availability/visit invariant and the
    robust-child rule. -/

/-- Reading the statistics of an updated node. -/
theorem Node.visits_update (t : Node) (pjm : Option (Fin 4)) (st : Coinche) :
    (t.update pjm st).visits = t.visits + 1 := by
  cases t
  rfl

/-- Updating keeps the availability count. -/
theorem Node.avails_update (t : Node) (pjm : Option (Fin 4)) (st : Coinche) :
    (t.update pjm st).avails = t.avails := by
  cases t
  rfl

/-- Updating keeps the children. -/
theorem Node.children_update (t : Node) (pjm : Option (Fin 4)) (st : Coinche) :
    (t.update pjm st).children = t.children := by
  cases t
  rfl

/-- Replacing the children list. -/
theorem Node.children_setChildren (t : Node) (cs : List (Card × Fin 4 × Node)) :
    (t.setChildren cs).children = cs := by
  cases t
  rfl

/-- `setChildren` keeps the statistics. -/
theorem Node.visits_setChildren (t : Node) (cs : List (Card × Fin 4 × Node)) :
    (t.setChildren cs).visits = t.visits := by
  cases t
  rfl

/-- `setChildren` keeps the availability count. -/
theorem Node.avails_setChildren (t : Node) (cs : List (Card × Fin 4 × Node)) :
    (t.setChildren cs).avails = t.avails := by
  cases t
  rfl

/-- The availability bump. -/
theorem Node.avails_bumpAvails (t : Node) : t.bumpAvails.avails = t.avails + 1 := by
  cases t
  rfl

/-- Bumping keeps the visit count. -/
theorem Node.visits_bumpAvails (t : Node) : t.bumpAvails.visits = t.visits := by
  cases t
  rfl

/-- Bumping keeps the children. -/
theorem Node.children_bumpAvails (t : Node) : t.bumpAvails.children = t.children := by
  cases t
  rfl

/-- Unpacking `SubOk` through the children accessor. -/
theorem SubOk.children_ok {t : Node} (h : SubOk t) :
    ∀ e ∈ t.children, e.2.2.visits ≤ e.2.2.avails ∧ SubOk e.2.2 := by
  cases h with
  | mk w v a cs hstat hrec => exact fun e he => ⟨hstat e he, hrec e he⟩

/-- Rebuilding `SubOk` from the children. -/
theorem SubOk.of_children {t : Node}
    (h : ∀ e ∈ t.children, e.2.2.visits ≤ e.2.2.avails ∧ SubOk e.2.2) : SubOk t := by
  cases t
  exact SubOk.mk _ _ _ _ (fun e he => (h e he).1) (fun e he => (h e he).2)

/-- Height only looks at the tree shape, not the statistics. -/
theorem nodeHeight_bumpAvails (t : Node) : nodeHeight t.bumpAvails = nodeHeight t := by
  cases t
  rfl

/-- Height of a node with replaced children. -/
theorem nodeHeight_setChildren (t : Node) (cs : List (Card × Fin 4 × Node)) :
    nodeHeight (t.setChildren cs) = 1 + heightChildren cs := by
  cases t
  rfl

/-- Height of an updated node. -/
theorem nodeHeight_update (t : Node) (pjm : Option (Fin 4)) (st : Coinche) :
    nodeHeight (t.update pjm st) = nodeHeight t := by
  cases t
  rfl

/-- The height of a node in terms of its children accessor. -/
theorem nodeHeight_eq (t : Node) : nodeHeight t = 1 + heightChildren t.children := by
  cases t
  rfl

/-- A member's subtree is lower than the surrounding children bound. -/
theorem nodeHeight_le_heightChildren :
    ∀ (cs : List (Card × Fin 4 × Node)), ∀ e ∈ cs, nodeHeight e.2.2 ≤ heightChildren cs
  | [], e, he => absurd he (List.not_mem_nil e)
  | c :: cs, e, he => by
    rw [heightChildren]
    rcases List.mem_cons.mp he with rfl | hm
    · exact Nat.le_max_left _ _
    · exact Nat.le_trans (nodeHeight_le_heightChildren cs e hm) (Nat.le_max_right _ _)

/-- The children bound splits over an append. -/
theorem heightChildren_append :
    ∀ (l1 l2 : List (Card × Fin 4 × Node)),
      heightChildren (l1 ++ l2) = max (heightChildren l1) (heightChildren l2)
  | [], l2 => by simp [heightChildren]
  | e :: l1, l2 => by
    rw [List.cons_append, heightChildren, heightChildren,
      heightChildren_append l1 l2, Nat.max_assoc]

/-- Whatever the trick, `get_moves` only offers cards of the mover's
    hand. -/
theorem get_moves_subset (s : Coinche) :
    ∀ m ∈ s.get_moves, m ∈ s.player_hands s.player_to_move := by
  intro m hm
  rw [Coinche.get_moves] at hm
  rcases hcur : s.current_cards with _ | ⟨⟨leader, lead⟩, rest⟩ <;> rw [hcur] at hm
  · exact hm
  · dsimp only at hm
    split at hm
    · exact (List.mem_filter.mp hm).1
    · split at hm
      · exact (List.mem_filter.mp hm).1
      · exact hm

/-- On a non-empty trick the winner computation always succeeds: the
    suited plays contain at least the lead card. -/
theorem get_trick_winner_isSome (s : Coinche) (h : s.current_cards ≠ []) :
    s.get_trick_winner.isSome := by
  rcases hcur : s.current_cards with _ | ⟨⟨leader, lead⟩, rest⟩
  · exact absurd hcur h
  · rw [Coinche.get_trick_winner, hcur]
    dsimp only
    have hsub : ((leader, lead) : Fin 4 × Card) ∈
        ((leader, lead) :: rest).filter (fun pc => pc.2.suit == lead.suit) := by
      rw [List.mem_filter]
      exact ⟨List.mem_cons_self _ _, by simp⟩
    by_cases hat : ((((leader, lead) :: rest).filter
        (fun pc => pc.2.suit == s.atout))).isEmpty
    · rw [if_pos hat]
      have hne : sortedByKey (fun pc => pc.2.value s.atout)
          (((leader, lead) :: rest).filter (fun pc => pc.2.suit == lead.suit)) ≠ [] := by
        intro h0
        have hp := sortedByKey_perm (fun pc => pc.2.value s.atout)
          (((leader, lead) :: rest).filter (fun pc => pc.2.suit == lead.suit))
        rw [h0] at hp
        rw [hp.symm.eq_nil] at hsub
        exact List.not_mem_nil _ hsub
      rcases Option.isSome_iff_exists.mp (List.getLast?_isSome.mpr hne) with ⟨y, hy⟩
      rw [hy]
      rfl
    · rw [if_neg hat]
      have hne : sortedByKey (fun pc => pc.2.value s.atout)
          (((leader, lead) :: rest).filter (fun pc => pc.2.suit == s.atout)) ≠ [] := by
        intro h0
        have hp := sortedByKey_perm (fun pc => pc.2.value s.atout)
          (((leader, lead) :: rest).filter (fun pc => pc.2.suit == s.atout))
        rw [h0] at hp
        rw [List.isEmpty_iff] at hat
        exact hat hp.symm.eq_nil
      rcases Option.isSome_iff_exists.mp (List.getLast?_isSome.mpr hne) with ⟨y, hy⟩
      rw [hy]
      rfl

/-- A failing winner computation means an empty trick. -/
theorem get_trick_winner_none {s : Coinche} (h : s.get_trick_winner = none) :
    s.current_cards = [] := by
  by_contra hne
  have hs := get_trick_winner_isSome s hne
  rw [h] at hs
  exact absurd hs (by simp)

/-- `do_move` succeeds exactly on cards of the mover's hand. -/
theorem do_move_isSome (s : Coinche) (m : Card)
    (h : m ∈ s.player_hands s.player_to_move) : (s.do_move m).isSome := by
  rw [Coinche.do_move]
  dsimp only
  rw [if_pos h]
  set cc := if s.current_cards.length < 4 then s.current_cards ++ [(s.player_to_move, m)]
    else [(s.player_to_move, m)] with hcc
  have hccne : cc ≠ [] := by
    rw [hcc]
    split <;> simp
  split
  · split
    · rename_i x heq
      have h0 := get_trick_winner_none heq
      dsimp only at h0
      exact absurd h0 hccne
    · rfl
  · rfl

/-- A successful descent splits the children at the first edge carrying
    the selected move and replaces only that edge's subtree with the
    result of the recursive walk. -/
theorem descendFirst_some (f : Fin 4 → Node → Option (Node × Coinche × Nat)) (m : Card) :
    ∀ (cs cs' : List (Card × Fin 4 × Node)) (stF : Coinche) (g' : Nat),
      descendFirst f m cs = some (cs', stF, g') →
      ∃ pre e t'' post, cs = pre ++ e :: post ∧ e.1 = m ∧
        (∀ e' ∈ pre, e'.1 ≠ m) ∧
        f e.2.1 e.2.2 = some (t'', stF, g') ∧ cs' = pre ++ (e.1, e.2.1, t'') :: post
  | [], cs', stF, g', hd => absurd hd (by rw [descendFirst]; simp)
  | e :: es, cs', stF, g', hd => by
    rw [descendFirst] at hd
    by_cases hm : e.1 = m
    · rw [if_pos hm] at hd
      cases hf : f e.2.1 e.2.2 with
      | none =>
        rw [hf] at hd
        exact absurd hd (by simp)
      | some r =>
        rw [hf] at hd
        simp only [Option.map_some'] at hd
        have hinj := Option.some.inj hd
        have h1 : (e.1, e.2.1, r.1) :: es = cs' := congrArg Prod.fst hinj
        have h2 : r.2.1 = stF := congrArg (fun x => x.2.1) hinj
        have h3 : r.2.2 = g' := congrArg (fun x => x.2.2) hinj
        refine ⟨[], e, r.1, es, rfl, hm, by simp, ?_, ?_⟩
        · rw [hf, ← h2, ← h3]
        · rw [List.nil_append, ← h1]
    · rw [if_neg hm] at hd
      cases hR : descendFirst f m es with
      | none =>
        rw [hR] at hd
        exact absurd hd (by simp)
      | some r =>
        rw [hR] at hd
        simp only [Option.map_some'] at hd
        have hinj := Option.some.inj hd
        have h1 : e :: r.1 = cs' := congrArg Prod.fst hinj
        have h2 : r.2.1 = stF := congrArg (fun x => x.2.1) hinj
        have h3 : r.2.2 = g' := congrArg (fun x => x.2.2) hinj
        obtain ⟨pre, e', t'', post, hsplit, hm', hpre, hf', hcs'⟩ :=
          descendFirst_some f m es r.1 r.2.1 r.2.2 (by rw [hR])
        refine ⟨e :: pre, e', t'', post, by rw [hsplit, List.cons_append], hm', ?_, ?_, ?_⟩
        · intro x hx
          rcases List.mem_cons.mp hx with rfl | hx'
          · exact hm
          · exact hpre x hx'
        · rw [hf', h2, h3]
        · rw [← h1, hcs', List.cons_append]

/-- The descent succeeds as soon as some edge carries the move and the
    recursive call succeeds on edges carrying it. -/
theorem descendFirst_isSome (f : Fin 4 → Node → Option (Node × Coinche × Nat)) (m : Card) :
    ∀ (cs : List (Card × Fin 4 × Node)),
      (∃ e ∈ cs, e.1 = m) → (∀ e ∈ cs, e.1 = m → (f e.2.1 e.2.2).isSome) →
      (descendFirst f m cs).isSome
  | [], hex, _ => by
    rcases hex with ⟨e, he, _⟩
    exact absurd he (List.not_mem_nil e)
  | e :: es, hex, hall => by
    rw [descendFirst]
    by_cases hm : e.1 = m
    · rw [if_pos hm]
      rcases Option.isSome_iff_exists.mp (hall e (List.mem_cons_self _ _) hm) with ⟨r, hr⟩
      rw [hr]
      rfl
    · rw [if_neg hm]
      have hex' : ∃ e' ∈ es, e'.1 = m := by
        rcases hex with ⟨e', he', hm'⟩
        rcases List.mem_cons.mp he' with rfl | hes
        · exact absurd hm' hm
        · exact ⟨e', hes, hm'⟩
      have hs := descendFirst_isSome f m es hex'
        (fun e' he' hm' => hall e' (List.mem_cons_of_mem _ he') hm')
      rcases Option.isSome_iff_exists.mp hs with ⟨r, hr⟩
      rw [hr]
      rfl

/-- Bumping the availability count preserves the subtree invariant. -/
theorem SubOk.bumpAvails {t : Node} (h : SubOk t) : SubOk t.bumpAvails := by
  cases t
  cases h with
  | mk w v a cs hstat hrec => exact SubOk.mk _ _ _ _ hstat hrec

/-- The children produced by the avails bump of `ucb_select_child` keep
    the statistics invariant, with a strict margin on the bumped ones. -/
theorem bumped_children_ok (t : Node) (legal : List Card) (h : SubOk t) :
    ∀ e ∈ t.children.map
      (fun e => if legal.contains e.1 then (e.1, e.2.1, e.2.2.bumpAvails) else e),
      (e.2.2.visits ≤ e.2.2.avails ∧ SubOk e.2.2) ∧
        (e.1 ∈ legal → e.2.2.visits + 1 ≤ e.2.2.avails) := by
  intro e he
  rcases List.mem_map.mp he with ⟨orig, horig, heq⟩
  have hok := h.children_ok orig horig
  by_cases hc : legal.contains orig.1
  · rw [if_pos hc] at heq
    subst heq
    refine ⟨⟨?_, hok.2.bumpAvails⟩, fun _ => ?_⟩ <;>
      simp only [Node.avails_bumpAvails, Node.visits_bumpAvails] <;> omega
  · rw [if_neg hc] at heq
    subst heq
    refine ⟨hok, fun hmem => ?_⟩
    exact absurd (List.elem_eq_true_of_mem hmem) hc

/-- The statistics contract of one `walk`: on success the tree keeps the
    below-root invariant, the entered node gains exactly one visit and no
    availability, the children never shrink, and a non-terminal
    determinized state leaves at least one child behind. -/
theorem walk_stats (sel : SelFun) : ∀ (fuel : Nat) (pjm : Option (Fin 4)) (t : Node)
    (st : Coinche) (g : Nat) (t' : Node) (stF : Coinche) (g' : Nat),
    walk sel fuel pjm t st g = some (t', stF, g') → SubOk t →
    SubOk t' ∧ t'.visits = t.visits + 1 ∧ t'.avails = t.avails ∧
      t.children.length ≤ t'.children.length ∧
      (st.get_moves ≠ [] → 1 ≤ t'.children.length)
  | 0, pjm, t, st, g, t', stF, g', hw, hok => absurd hw (by rw [walk]; simp)
  | fuel + 1, pjm, t, st, g, t', stF, g', hw, hok => by
    rw [walk] at hw
    by_cases hsel : st.get_moves ≠ [] ∧ t.get_untried_moves st.get_moves = []
    · rw [if_pos hsel] at hw
      set legal := st.get_moves with hlegal
      set lc := t.children.filter (fun e => legal.contains e.1) with hlc
      dsimp only at hw
      cases hget : lc[sel (lc.map (fun e => e.2.2.stats)) % lc.length]? with
      | none =>
        rw [hget] at hw
        exact absurd hw (by simp)
      | some chosen =>
        rw [hget] at hw
        dsimp only at hw
        set bumped := t.children.map
          (fun e => if legal.contains e.1 then (e.1, e.2.1, e.2.2.bumpAvails) else e)
          with hbumped
        cases hdes : descendFirst
            (fun p' t'0 => (st.do_move chosen.1).bind
              (fun st' => walk sel fuel (some p') t'0 st' g))
            chosen.1 bumped with
        | none =>
          rw [hdes] at hw
          exact absurd hw (by simp)
        | some r =>
          rw [hdes] at hw
          simp only [Option.some.injEq] at hw
          have ht' : (t.setChildren r.1).update pjm r.2.1 = t' := congrArg Prod.fst hw
          obtain ⟨pre, e, t'', post, hsplitb, hmove, hpre, hf, hcs'⟩ :=
            descendFirst_some _ _ bumped r.1 r.2.1 r.2.2 (by rw [hdes])
          have hchosen_legal : chosen.1 ∈ legal := by
            have hmem := List.getElem?_mem hget
            rw [hlc] at hmem
            have hc := List.of_mem_filter hmem
            exact List.mem_of_elem_eq_true hc
          have hemem : e ∈ bumped := by
            rw [hsplitb]
            exact List.mem_append.mpr (Or.inr (List.mem_cons_self _ _))
          have heok := bumped_children_ok t legal hok e (hbumped ▸ hemem)
          obtain ⟨st', hdm, hwrec⟩ : ∃ st', st.do_move chosen.1 = some st' ∧
              walk sel fuel (some e.2.1) e.2.2 st' g = some (t'', r.2.1, r.2.2) := by
            cases hdm : st.do_move chosen.1 with
            | none => rw [hdm] at hf; exact absurd hf (by simp)
            | some st' =>
              rw [hdm] at hf
              exact ⟨st', rfl, hf⟩
          obtain ⟨hsub'', hv'', ha'', _, _⟩ :=
            walk_stats sel fuel (some e.2.1) e.2.2 st' g t'' r.2.1 r.2.2 hwrec heok.1.2
          have hlenb : bumped.length = t.children.length := by
            rw [hbumped, List.length_map]
          have hlenr : r.1.length = t.children.length := by
            rw [hcs', ← hlenb, hsplitb]
            simp
          have hchpos : 1 ≤ t.children.length := by
            have hidx : sel (lc.map (fun e => e.2.2.stats)) % lc.length < lc.length := by
              by_contra hc
              rw [List.getElem?_eq_none (by omega)] at hget
              exact Option.noConfusion hget
            have hfle := List.length_filter_le (fun e => legal.contains e.1) t.children
            rw [← hlc] at hfle
            omega
          subst ht'
          refine ⟨?_, ?_, ?_, ?_, ?_⟩
          · apply SubOk.of_children
            rw [Node.children_update, Node.children_setChildren, hcs']
            intro x hx
            rcases List.mem_append.mp hx with hx' | hx'
            · exact (bumped_children_ok t legal hok x
                (hbumped ▸ (hsplitb ▸ List.mem_append.mpr (Or.inl hx')))).1
            · rcases List.mem_cons.mp hx' with rfl | hx''
              · constructor
                · dsimp only
                  rw [hv'', ha'']
                  exact heok.2 (hmove.symm ▸ hchosen_legal)
                · exact hsub''
              · exact (bumped_children_ok t legal hok x
                  (hbumped ▸ (hsplitb ▸ List.mem_append.mpr
                    (Or.inr (List.mem_cons_of_mem _ hx''))))).1
          · rw [Node.visits_update, Node.visits_setChildren]
          · rw [Node.avails_update, Node.avails_setChildren]
          · rw [Node.children_update, Node.children_setChildren, hlenr]
          · intro _
            rw [Node.children_update, Node.children_setChildren, hlenr]
            exact hchpos
    · rw [if_neg hsel] at hw
      by_cases hunt : t.get_untried_moves st.get_moves ≠ []
      · rw [dif_pos hunt] at hw
        dsimp only at hw
        split at hw
        · exact absurd hw (by simp)
        · rename_i st' hdm
          simp only [Option.some.injEq] at hw
          have ht' := congrArg Prod.fst hw
          dsimp only at ht'
          subst ht'
          refine ⟨?_, ?_, ?_, ?_, ?_⟩
          · apply SubOk.of_children
            rw [Node.children_update, Node.children_setChildren]
            intro x hx
            rcases List.mem_append.mp hx with hx' | hx'
            · exact hok.children_ok x hx'
            · rcases List.mem_cons.mp hx' with rfl | hx''
              · refine ⟨by rw [Node.visits_update, Node.avails_update]; decide, ?_⟩
                apply SubOk.of_children
                rw [Node.children_update]
                intro y hy
                exact absurd hy (List.not_mem_nil y)
              · exact absurd hx'' (List.not_mem_nil x)
          · rw [Node.visits_update, Node.visits_setChildren]
          · rw [Node.avails_update, Node.avails_setChildren]
          · rw [Node.children_update, Node.children_setChildren]
            simp
          · intro _
            rw [Node.children_update, Node.children_setChildren]
            simp
      · rw [dif_neg hunt] at hw
        simp only [Option.some.injEq] at hw
        have ht' := congrArg Prod.fst hw
        dsimp only at ht'
        subst ht'
        have hterm : st.get_moves = [] := by
          by_cases hl : st.get_moves = []
          · exact hl
          · exact absurd ⟨hl, not_not.mp (by simpa using hunt)⟩ hsel
        refine ⟨?_, ?_, ?_, ?_, ?_⟩
        · apply SubOk.of_children
          rw [Node.children_update]
          exact hok.children_ok
        · rw [Node.visits_update]
        · rw [Node.avails_update]
        · rw [Node.children_update]
        · intro hne
          exact absurd hterm hne

/-- The avails bump does not change any height. -/
theorem heightChildren_map_bump (legal : List Card) :
    ∀ cs : List (Card × Fin 4 × Node),
      heightChildren (cs.map
        (fun e => if legal.contains e.1 then (e.1, e.2.1, e.2.2.bumpAvails) else e)) =
      heightChildren cs
  | [] => rfl
  | e :: es => by
    rw [List.map_cons, heightChildren, heightChildren, heightChildren_map_bump legal es]
    congr 1
    split
    · exact nodeHeight_bumpAvails e.2.2
    · rfl

/-- One `walk` grows the tree height by at most one (the single expanded
    node). -/
theorem walk_height (sel : SelFun) : ∀ (fuel : Nat) (pjm : Option (Fin 4)) (t : Node)
    (st : Coinche) (g : Nat) (t' : Node) (stF : Coinche) (g' : Nat),
    walk sel fuel pjm t st g = some (t', stF, g') →
    nodeHeight t' ≤ nodeHeight t + 1
  | 0, pjm, t, st, g, t', stF, g', hw => absurd hw (by rw [walk]; simp)
  | fuel + 1, pjm, t, st, g, t', stF, g', hw => by
    rw [walk] at hw
    by_cases hsel : st.get_moves ≠ [] ∧ t.get_untried_moves st.get_moves = []
    · rw [if_pos hsel] at hw
      set legal := st.get_moves with hlegal
      set lc := t.children.filter (fun e => legal.contains e.1) with hlc
      dsimp only at hw
      cases hget : lc[sel (lc.map (fun e => e.2.2.stats)) % lc.length]? with
      | none =>
        rw [hget] at hw
        exact absurd hw (by simp)
      | some chosen =>
        rw [hget] at hw
        dsimp only at hw
        set bumped := t.children.map
          (fun e => if legal.contains e.1 then (e.1, e.2.1, e.2.2.bumpAvails) else e)
          with hbumped
        cases hdes : descendFirst
            (fun p' t'0 => (st.do_move chosen.1).bind
              (fun st' => walk sel fuel (some p') t'0 st' g))
            chosen.1 bumped with
        | none =>
          rw [hdes] at hw
          exact absurd hw (by simp)
        | some r =>
          rw [hdes] at hw
          simp only [Option.some.injEq] at hw
          have ht' : (t.setChildren r.1).update pjm r.2.1 = t' := congrArg Prod.fst hw
          obtain ⟨pre, e, t'', post, hsplitb, hmove, hpre, hf, hcs'⟩ :=
            descendFirst_some _ _ bumped r.1 r.2.1 r.2.2 (by rw [hdes])
          obtain ⟨st', hdm, hwrec⟩ : ∃ st', st.do_move chosen.1 = some st' ∧
              walk sel fuel (some e.2.1) e.2.2 st' g = some (t'', r.2.1, r.2.2) := by
            cases hdm : st.do_move chosen.1 with
            | none => rw [hdm] at hf; exact absurd hf (by simp)
            | some st' =>
              rw [hdm] at hf
              exact ⟨st', rfl, hf⟩
          have hrec := walk_height sel fuel (some e.2.1) e.2.2 st' g t'' r.2.1 r.2.2 hwrec
          have hbheight : heightChildren bumped = heightChildren t.children := by
            rw [hbumped, heightChildren_map_bump]
          have hemem : e ∈ bumped := by
            rw [hsplitb]
            exact List.mem_append.mpr (Or.inr (List.mem_cons_self _ _))
          have hsub : nodeHeight e.2.2 ≤ heightChildren t.children := by
            rw [← hbheight]
            exact nodeHeight_le_heightChildren bumped e hemem
          subst ht'
          rw [nodeHeight_update, nodeHeight_setChildren, nodeHeight_eq t, hcs']
          rw [heightChildren_append, heightChildren]
          have hpr : heightChildren pre ≤ heightChildren t.children := by
            rw [← hbheight, hsplitb, heightChildren_append]
            omega
          have hpo : heightChildren post ≤ heightChildren t.children := by
            rw [← hbheight, hsplitb, heightChildren_append, heightChildren]
            omega
          dsimp only
          omega
    · rw [if_neg hsel] at hw
      by_cases hunt : t.get_untried_moves st.get_moves ≠ []
      · rw [dif_pos hunt] at hw
        dsimp only at hw
        split at hw
        · exact absurd hw (by simp)
        · rename_i st' hdm
          simp only [Option.some.injEq] at hw
          have ht' := congrArg Prod.fst hw
          dsimp only at ht'
          subst ht'
          rw [nodeHeight_update, nodeHeight_setChildren, nodeHeight_eq t,
            heightChildren_append, heightChildren, heightChildren]
          rw [nodeHeight_update]
          show 1 + max (heightChildren t.children) (max (nodeHeight (.mk 0 0 1 [])) 0) ≤
            1 + heightChildren t.children + 1
          rw [nodeHeight]
          dsimp only [heightChildren]
          omega
      · rw [dif_neg hunt] at hw
        simp only [Option.some.injEq] at hw
        have ht' := congrArg Prod.fst hw
        dsimp only at ht'
        subst ht'
        rw [nodeHeight_update]
        omega

/-- With fuel above the tree height, `walk` always succeeds: the fuel is
    an artefact of the embedding, and every Python-exception branch is
    unreachable. -/
theorem walk_isSome (sel : SelFun) : ∀ (fuel : Nat) (pjm : Option (Fin 4)) (t : Node)
    (st : Coinche) (g : Nat), nodeHeight t < fuel →
    (walk sel fuel pjm t st g).isSome
  | 0, pjm, t, st, g, hfuel => absurd hfuel (by omega)
  | fuel + 1, pjm, t, st, g, hfuel => by
    rw [walk]
    by_cases hsel : st.get_moves ≠ [] ∧ t.get_untried_moves st.get_moves = []
    · rw [if_pos hsel]
      set legal := st.get_moves with hlegal
      set lc := t.children.filter (fun e => legal.contains e.1) with hlc
      dsimp only
      have hlcne : lc ≠ [] := by
        obtain ⟨hne, hemp⟩ := hsel
        rcases hm0 : legal with _ | ⟨m0, ms⟩
        · exact absurd hm0 hne
        · have hm0mem : m0 ∈ legal := by rw [hm0]; exact List.mem_cons_self _ _
          have htried : (t.children.map (fun e => e.1)).contains m0 = true := by
            rw [Node.get_untried_moves, List.filter_eq_nil_iff] at hemp
            have := hemp m0 hm0mem
            simpa using this
          have hmm := List.mem_of_elem_eq_true htried
          rcases List.mem_map.mp hmm with ⟨e0, he0, he0m⟩
          intro h0
          have he0lc : e0 ∈ lc := by
            rw [hlc, List.mem_filter]
            exact ⟨he0, by rw [he0m]; exact List.elem_eq_true_of_mem hm0mem⟩
          rw [h0] at he0lc
          exact List.not_mem_nil _ he0lc
      have hidx : sel (lc.map (fun e => e.2.2.stats)) % lc.length < lc.length :=
        Nat.mod_lt _ (List.length_pos.mpr hlcne)
      rw [List.getElem?_eq_getElem hidx]
      dsimp only
      set chosen := lc[sel (lc.map (fun e => e.2.2.stats)) % lc.length] with hchosen
      have hchosenlc : chosen ∈ lc := by
        rw [hchosen]
        exact List.getElem_mem _
      have hchosenlegal : chosen.1 ∈ legal := by
        rw [hlc] at hchosenlc
        have hc := List.of_mem_filter hchosenlc
        exact List.mem_of_elem_eq_true hc
      set bumped := t.children.map
        (fun e => if legal.contains e.1 then (e.1, e.2.1, e.2.2.bumpAvails) else e)
        with hbumped
      have hdes : (descendFirst
          (fun p' t'0 => (st.do_move chosen.1).bind
            (fun st' => walk sel fuel (some p') t'0 st' g))
          chosen.1 bumped).isSome := by
        apply descendFirst_isSome
        · have hcmem : chosen ∈ t.children := by
            rw [hlc] at hchosenlc
            exact List.mem_filter.mp hchosenlc |>.1
          refine ⟨if legal.contains chosen.1
              then (chosen.1, chosen.2.1, chosen.2.2.bumpAvails) else chosen,
            List.mem_map_of_mem _ hcmem, ?_⟩
          split <;> rfl
        · intro e he hem
          rcases Option.isSome_iff_exists.mp (do_move_isSome st chosen.1
            (get_moves_subset st chosen.1 hchosenlegal)) with ⟨st', hst'⟩
          rw [hst']
          simp only [Option.some_bind]
          apply walk_isSome
          rcases List.mem_map.mp he with ⟨orig, horig, heq⟩
          have horigh : nodeHeight orig.2.2 ≤ heightChildren t.children :=
            nodeHeight_le_heightChildren _ _ horig
          have hh : nodeHeight e.2.2 = nodeHeight orig.2.2 := by
            rw [← heq]
            split
            · exact nodeHeight_bumpAvails orig.2.2
            · rfl
          rw [nodeHeight_eq] at hfuel
          omega
      rcases Option.isSome_iff_exists.mp hdes with ⟨r, hr⟩
      rw [hr]
      rfl
    · rw [if_neg hsel]
      by_cases hunt : t.get_untried_moves st.get_moves ≠ []
      · rw [dif_pos hunt]
        dsimp only
        have hmmem : (t.get_untried_moves st.get_moves).get
            ⟨(randStep g).1 % (t.get_untried_moves st.get_moves).length,
              Nat.mod_lt _ (List.length_pos.mpr hunt)⟩ ∈
            t.get_untried_moves st.get_moves := List.get_mem _ _ _
        have hmlegal : (t.get_untried_moves st.get_moves).get
            ⟨(randStep g).1 % (t.get_untried_moves st.get_moves).length,
              Nat.mod_lt _ (List.length_pos.mpr hunt)⟩ ∈ st.get_moves := by
          simp only [Node.get_untried_moves] at hmmem
          exact (List.mem_filter.mp hmmem).1
        rcases Option.isSome_iff_exists.mp (do_move_isSome st _
          (get_moves_subset st _ hmlegal)) with ⟨st', hst'⟩
        rw [hst']
        rfl
      · rw [dif_neg hunt]
        rfl

/-- `get_moves` only reads the mover, the mover's hand, the trick and
    the trump suit. -/
theorem get_moves_congr (s s' : Coinche)
    (hptm : s'.player_to_move = s.player_to_move)
    (hhand : s'.player_hands s.player_to_move = s.player_hands s.player_to_move)
    (hcur : s'.current_cards = s.current_cards)
    (hatout : s'.atout = s.atout) :
    s'.get_moves = s.get_moves := by
  rw [Coinche.get_moves, Coinche.get_moves, hptm, hhand, hcur, hatout]

/-- Determinizing from the mover's viewpoint does not change the legal
    moves. -/
theorem get_moves_clone (s : Coinche) (g : Nat) :
    ((clone_and_randomize s s.player_to_move g).1).get_moves = s.get_moves := by
  obtain ⟨hh, hc, ha, _, _, hp, _, _, _⟩ :=
    clone_and_randomize_with_frame s s.player_to_move _ (shuffleGo_perm _ _ _ rfl)
  exact get_moves_congr s _ hp hh hc ha

/-- The iteration loop: with per-walk fuel covering the growing tree
    height, every iteration succeeds, the root gains exactly one visit
    per iteration and no availability, the sub-root invariant is kept,
    the root's children never shrink and the height grows by at most one
    per iteration. -/
theorem iterLoop_spec (sel : SelFun) (root : Coinche) (F : Nat) :
    ∀ (n : Nat) (t : Node) (g : Nat), SubOk t → nodeHeight t + n ≤ F →
    ∃ t' g', iterLoop sel root F n t g = some (t', g') ∧ SubOk t' ∧
      t'.visits = t.visits + n ∧ t'.avails = t.avails ∧
      t.children.length ≤ t'.children.length ∧ nodeHeight t' ≤ nodeHeight t + n
  | 0, t, g, hok, hF => ⟨t, g, by rw [iterLoop], hok, by omega, rfl, le_refl _, by omega⟩
  | n + 1, t, g, hok, hF => by
    rw [iterLoop]
    have hws := walk_isSome sel F none t
      (clone_and_randomize root root.player_to_move g).1
      (clone_and_randomize root root.player_to_move g).2 (by omega)
    rcases Option.isSome_iff_exists.mp hws with ⟨⟨t1, stF, g1⟩, hw⟩
    obtain ⟨hok1, hv1, ha1, hl1, _⟩ := walk_stats sel F none t _ _ t1 stF g1 hw hok
    have hh1 := walk_height sel F none t _ _ t1 stF g1 hw
    obtain ⟨t', g', hloop, hok', hv', ha', hl', hh'⟩ :=
      iterLoop_spec sel root F n t1 g1 hok1 (by omega)
    refine ⟨t', g', ?_, hok', by omega, by rw [ha', ha1], by omega, by omega⟩
    dsimp only
    rw [hw]
    exact hloop

/-- Python's first-maximum `max(..., key=visits)`: the result is the
    seed or a list element, at least as visited as the seed and as every
    element. -/
theorem bestChild_spec : ∀ (es : List (Card × Fin 4 × Node)) (b : Card × Fin 4 × Node),
    (bestChild b es = b ∨ bestChild b es ∈ es) ∧
      b.2.2.visits ≤ (bestChild b es).2.2.visits ∧
      ∀ e ∈ es, e.2.2.visits ≤ (bestChild b es).2.2.visits
  | [], b => ⟨Or.inl rfl, le_refl _, fun e he => absurd he (List.not_mem_nil e)⟩
  | e :: es, b => by
    rw [bestChild]
    obtain ⟨h1, h2, h3⟩ := bestChild_spec es (if b.2.2.visits < e.2.2.visits then e else b)
    have hble : b.2.2.visits ≤ (if b.2.2.visits < e.2.2.visits then e else b).2.2.visits := by
      split <;> omega
    have hele : e.2.2.visits ≤ (if b.2.2.visits < e.2.2.visits then e else b).2.2.visits := by
      split
      · exact le_refl _
      · omega
    refine ⟨?_, le_trans hble h2, ?_⟩
    · rcases h1 with heq | hmem
      · rw [heq]
        split
        · exact Or.inr (List.mem_cons_self _ _)
        · exact Or.inl rfl
      · exact Or.inr (List.mem_cons_of_mem _ hmem)
    · intro x hx
      rcases List.mem_cons.mp hx with rfl | hx'
      · exact le_trans hele h2
      · exact h3 x hx'

/-- C8 counterexample: in the run of `ismcts` on `c8State` with
    itermax = 2 (per-walk fuel 2 + 2, exactly as `ismcts` passes it), the
    ROOT node ends with visit count 2 but availability count 1 — nothing
    ever increments the root's avails — so "every node satisfies
    avails ≥ visits at all times" is false as soon as itermax ≥ 2. -/
theorem root_avails_lt_visits :
    (iterLoop selFirst c8State (2 + 2) 2 rootNode 7).map
        (fun r => (r.1.visits, r.1.avails)) = some (2, 1) ∧
      ¬(2 ≤ 1) :=
  ⟨by decide, by omega⟩

/-- C8 (amended): in every run of `ismcts` (any selection policy, seed
    and root state), after every iteration count n the loop succeeds,
    every node strictly below the root satisfies avails ≥ visits (≥ 0 by
    type), and the root's visit count equals n — in particular it equals
    itermax after itermax ≥ 1 iterations — while the root's availability
    count stays at its initial 1; the returned move is then read off
    this tree. -/
theorem ismcts_tree_invariant (sel : SelFun) (root : Coinche) (n g : Nat) :
    ∃ t' g', iterLoop sel root (n + 2) n rootNode g = some (t', g') ∧
      SubOk t' ∧ t'.visits = n ∧ t'.avails = 1 ∧
      ismcts sel root n g = bestMove t'.children := by
  obtain ⟨t', g', hloop, hok, hv, ha, _, _⟩ :=
    iterLoop_spec sel root (n + 2) n rootNode g
      (SubOk.of_children (fun e he => absurd he (List.not_mem_nil e)))
      (by show nodeHeight rootNode + n ≤ n + 2; rw [show nodeHeight rootNode = 1 from rfl]; omega)
  refine ⟨t', g', hloop, hok, ?_, ?_, ?_⟩
  · rw [hv]
    show 0 + n = n
    omega
  · rw [ha]
    rfl
  · rw [ismcts, hloop]

/-- C9: for every root state with at least one legal move, every
    selection policy, every seed and every itermax ≥ 1, `ismcts` returns
    the move of a root child whose visit count is maximal among all the
    root's children (robust-child rule, by visits). -/
theorem ismcts_returns_most_visited (sel : SelFun) (root : Coinche) (n g : Nat)
    (hmoves : root.get_moves ≠ []) (hn : 1 ≤ n) :
    ∃ t' g' e, iterLoop sel root (n + 2) n rootNode g = some (t', g') ∧
      e ∈ t'.children ∧ ismcts sel root n g = some e.1 ∧
      ∀ e' ∈ t'.children, e'.2.2.visits ≤ e.2.2.visits := by
  obtain ⟨m, rfl⟩ : ∃ m, n = m + 1 := ⟨n - 1, by omega⟩
  have hws := walk_isSome sel (m + 1 + 2) none rootNode
    (clone_and_randomize root root.player_to_move g).1
    (clone_and_randomize root root.player_to_move g).2
    (by rw [show nodeHeight rootNode = 1 from rfl]; omega)
  rcases Option.isSome_iff_exists.mp hws with ⟨⟨t1, stF, g1⟩, hw⟩
  obtain ⟨hok1, _, _, _, hpos⟩ := walk_stats sel (m + 1 + 2) none rootNode _ _ t1 stF g1 hw
    (SubOk.of_children (fun e he => absurd he (List.not_mem_nil e)))
  have hpos1 : 1 ≤ t1.children.length := by
    apply hpos
    rw [get_moves_clone]
    exact hmoves
  have hh1 := walk_height sel (m + 1 + 2) none rootNode _ _ t1 stF g1 hw
  obtain ⟨t', g', hloop, hok', hv', ha', hl', hh'⟩ :=
    iterLoop_spec sel root (m + 1 + 2) m t1 g1 hok1
      (by rw [show nodeHeight rootNode = 1 from rfl] at hh1; omega)
  have hloop1 : iterLoop sel root (m + 1 + 2) (m + 1) rootNode g = some (t', g') := by
    rw [iterLoop]
    rw [hw]
    exact hloop
  have hane : t'.children ≠ [] := by
    intro h0
    rw [h0] at hl'
    simp only [List.length_nil] at hl'
    omega
  rcases hcs : t'.children with _ | ⟨e0, es⟩
  · exact absurd hcs hane
  · obtain ⟨hin, hge, hall⟩ := bestChild_spec es e0
    refine ⟨t', g', bestChild e0 es, hloop1, ?_, ?_, ?_⟩
    · rw [hcs]
      rcases hin with heq | hmem
      · rw [heq]
        exact List.mem_cons_self _ _
      · exact List.mem_cons_of_mem _ hmem
    · rw [ismcts, hloop1]
      show bestMove t'.children = some (bestChild e0 es).1
      rw [hcs]
      rfl
    · intro x hx
      rw [hcs] at hx
      rcases List.mem_cons.mp hx with rfl | hx'
      · exact hge
      · exact hall x hx'

/-- C10: the search is deterministic given the random source: two runs
    of `ismcts` with the same selection policy, equal root states, equal
    iteration budgets and the same initial random seed return the same
    move. The embedding threads the single pseudo-random source
    explicitly, so the result is a pure function of its arguments. -/
theorem ismcts_deterministic (sel : SelFun) (s1 s2 : Coinche) (n : Nat) (g1 g2 : Nat)
    (hs : s1 = s2) (hg : g1 = g2) : ismcts sel s1 n g1 = ismcts sel s2 n g2 := by
  rw [hs, hg]

/-- Witness for `ismcts_deterministic` at a concrete state and seed. -/
theorem ismcts_deterministic_witness :
    ismcts selFirst c8State 1 7 = ismcts selFirst c8State 1 7 :=
  ismcts_deterministic selFirst c8State c8State 1 7 7 rfl rfl

/-- Witness for `ismcts_returns_most_visited` on `c8State`. -/
theorem ismcts_returns_most_visited_witness :
    ∃ t' g' e, iterLoop selFirst c8State (1 + 2) 1 rootNode 7 = some (t', g') ∧
      e ∈ t'.children ∧ ismcts selFirst c8State 1 7 = some e.1 ∧
      ∀ e' ∈ t'.children, e'.2.2.visits ≤ e.2.2.visits :=
  ismcts_returns_most_visited selFirst c8State 1 7 (by decide) (by decide)
